import Mathlib

/-!
mkv3update: Hanlin V3 firmware builder.

A shallow embedding of `main.c` and the properties of the image it assembles.

Conventions of the embedding.

* A byte is a natural number (values written by the program are below 256).
* Memory reachable from the `firmware` pointer is a function from the signed
  byte distance to the pointer (`firmware + d` is address `d`) to bytes.
* A file is a length together with its bytes by offset.
* C `int` arithmetic is 32-bit two's complement (`int32`), `long` is 64-bit
  (`int64`), `size_t` is 64-bit unsigned (`size_t`).
* Every system call the source checks for failure has its outcome supplied by
  the environment (`input_file`, `output_env`, the result of `localtime`);
  `mmap` of length 0 always fails.
* A status is `some n` when the function returns `n` and `none` when it does not
  return because the process is killed inside it.
* An input descriptor is open from a successful `open` until `close` is
  called on it.
* The digest `__md5_buffer` computes (declared in `md5.h`) is a parameter
  `md5`, a function from the bytes read to the 16 bytes written.
* Console output (`printf`, `perror`) is not part of the state.
-/

namespace Mkv3update

/-- One byte of memory or of a file. -/
abbrev Byte := Nat

/-- Memory addressed relative to the `firmware` pointer. -/
abbrev Mem := Int → Byte

/-- Value of a C `int` holding the mathematical integer `x` (two's complement wrap). -/
def int32 (x : Int) : Int := (x + 2147483648) % 4294967296 - 2147483648

/-- Value of a C `long` holding the mathematical integer `x`. -/
def int64 (x : Int) : Int := (x + 9223372036854775808) % 18446744073709551616 - 9223372036854775808

/-- Value of a `size_t` (or `unsigned long`) holding the mathematical integer `x`. -/
def size_t (x : Int) : Nat := (x % 18446744073709551616).toNat

/-- The record `partition_t`: offset and size are `int`, in blocks. -/
structure partition_t where
  name : String
  description : String
  offset : Int
  size : Int

/-- The table `v3_orig_partitions`. -/
def v3_orig_partitions : List partition_t :=
  [ ⟨"kernel", "zImage", 1, 1⟩,
    ⟨"rofs", "cramfs", 2, 6⟩,
    ⟨"rootfs", "cramfs", 8, 44⟩,
    ⟨"logo", "two 800x600 2-bit images", 52, 1⟩,
    ⟨"userdata", "jffs2", 53, 2⟩,
    ⟨"storage", "vfat", 55, 9⟩ ]

/-- The table `v3_oi_partitions`. -/
def v3_oi_partitions : List partition_t :=
  [ ⟨"kernel", "zImage", 1, 1⟩,
    ⟨"rootfs", "jffs2", 2, 50⟩,
    ⟨"logo", "two 800x600 2-bit images", 52, 1⟩,
    ⟨"userdata", "jffs2", 53, 2⟩,
    ⟨"storage", "vfat", 55, 9⟩ ]

/-- The record `layout_t`; `npartitions` is the length of `partitions`. -/
structure layout_t where
  name : String
  tag : String
  size : Nat
  partitions : List partition_t

/-- Number of partitions of a layout (the field `npartitions`). -/
def layout_t.npartitions (l : layout_t) : Nat := l.partitions.length

/-- The entry `layouts[0]`. -/
def layout_oi : layout_t := ⟨"OpenInkpot V3 firmware", "oi", 64, v3_oi_partitions⟩

/-- The entry `layouts[1]`. -/
def layout_hanlin : layout_t := ⟨"Original Hanlin V3 firmware", "hanlin", 64, v3_orig_partitions⟩

/-- The table `layouts`. -/
def layouts : List layout_t := [layout_oi, layout_hanlin]

/-- The constant `nlayouts`. -/
def nlayouts : Nat := layouts.length

/-- The function `get_layout`: first entry whose tag equals the name. -/
def get_layout (layout_name : String) : Option layout_t :=
  layouts.find? (fun l => l.tag == layout_name)

/-- The constant `MEGABYTE`. -/
def MEGABYTE : Nat := 1024 * 1024

/-- The constant `BLOCK_SIZE`. -/
def BLOCK_SIZE : Nat := MEGABYTE

/-- The constant `HEADER_LEN`. -/
def HEADER_LEN : Nat := 76

/-- Number of rows of `block0_t.md5_sums`. -/
def md5_sums_count : Nat := (BLOCK_SIZE - HEADER_LEN) / 16

/-- Length of `block0_t.padding`. -/
def padding_len : Nat := (BLOCK_SIZE - HEADER_LEN) % 16

/-- Size of the packed record `block0_t`: `version[32]`, `vendor[40]`, the
32-bit `data_blocks`, the rows of `md5_sums` and `padding`, with no gaps. -/
def sizeof_block0_t : Nat := 32 + 40 + 4 + md5_sums_count * 16 + padding_len

/-- Offset of `block0_t.version` in the packed record. -/
def version_offset : Int := 0

/-- Offset of `block0_t.vendor`: after `version[32]`. -/
def vendor_offset : Int := 32

/-- Offset of `block0_t.data_blocks`: after `vendor[40]`. -/
def data_blocks_offset : Int := 72

/-- Offset of `block0_t.md5_sums[i]`: rows of 16 bytes after `data_blocks`. -/
def md5_sums_offset (i : Int) : Int := 76 + 16 * i

/-- The function `div_ceil`, on `long`; C division truncates toward zero. -/
def div_ceil (dividend divisor : Int) : Int :=
  Int.tdiv (int64 (int64 (dividend + divisor) - 1)) divisor

/-- The function `max`, on `long`. -/
def max (a b : Int) : Int := if a > b then a else b

/-- What the system answers for one input path: whether `open`, `fstat`,
`mmap` (of a non-zero length, see `mmap_failed`), `munmap` and `close` succeed,
the size `fstat` reports and the bytes the mapping shows. -/
structure input_file where
  open_ok : Bool
  fstat_ok : Bool
  st_size : Nat
  mmap_ok : Bool
  content : Nat → Byte
  munmap_ok : Bool
  close_ok : Bool

/-- The call `mmap(NULL, file_size, PROT_READ, MAP_SHARED, f, 0)` returns
`MAP_FAILED`: always when the length is 0 (`EINVAL`), otherwise when the system
says so. -/
def mmap_failed (f : input_file) : Bool := f.st_size == 0 || !f.mmap_ok

/-- The state `put_file_to_image` works on: the memory at `firmware`, the
global `firmware_end_block`, and the number of input descriptors that are
open. -/
structure state where
  firmware : Mem
  firmware_end_block : Int
  open_inputs : Nat

/-- The call `memset(firmware + dst, c, n)`. -/
def memset (mem : Mem) (dst : Int) (c : Byte) (n : Nat) : Mem :=
  fun a => if dst ≤ a ∧ a < dst + n then c else mem a

/-- The call `memcpy(firmware + dst, src, n)` from a mapped input. -/
def memcpy (mem : Mem) (dst : Int) (src : Nat → Byte) (n : Nat) : Mem :=
  fun a => if dst ≤ a ∧ a < dst + n then src (a - dst).toNat else mem a

/-- The function `put_file_to_image`: status and state at return. The returns
on a failed `fstat`, size check or `munmap` come before `close(f)`. When `mmap`
fails, `buf` is `MAP_FAILED` and the source passes it to `perror`, which reads
the string at that address: the process is killed there (status `none`) and
`return 1` is not reached. -/
def put_file_to_image (partition : partition_t) (s : state) (f : input_file) :
    Option Int × state :=
  if !f.open_ok then (some 1, s) else
  let s1 : state := ⟨s.firmware, s.firmware_end_block, s.open_inputs + 1⟩
  if !f.fstat_ok then (some 1, s1) else
  let file_size : Int := f.st_size
  if file_size > int32 (partition.size * BLOCK_SIZE) then (some 1, s1) else
  if mmap_failed f then (none, s1) else
  let s2 : state :=
    ⟨memcpy s1.firmware (int32 (partition.offset * BLOCK_SIZE)) f.content (size_t file_size),
     s1.firmware_end_block, s1.open_inputs⟩
  if !f.munmap_ok then (some 1, s2) else
  let s3 : state := ⟨s2.firmware, s2.firmware_end_block, s2.open_inputs - 1⟩
  if !f.close_ok then (some 1, s3) else
  (some 0, ⟨s3.firmware,
       int32 (max s3.firmware_end_block (partition.offset + div_ceil file_size BLOCK_SIZE)),
       s3.open_inputs⟩)

/-- The bytes `len` long at `firmware + p`, as `__md5_buffer` reads them. -/
def read_bytes (mem : Mem) (p : Int) (len : Nat) : List Byte :=
  (List.range len).map (fun (k : Nat) => mem (p + (k : Int)))

/-- The call `__md5_buffer(firmware + buffer, len, firmware + resblock)`: the
16 bytes of the digest of the bytes read are stored at `resblock`. -/
def md5_buffer (md5 : List Byte → Fin 16 → Byte) (mem : Mem) (buffer : Int) (len : Nat)
    (resblock : Int) : Mem :=
  fun a =>
    if h : resblock ≤ a ∧ a < resblock + 16 then
      md5 (read_bytes mem buffer len) ⟨(a - resblock).toNat, by omega⟩
    else mem a

/-- The fields of `struct tm` that the header uses. -/
structure tm where
  tm_year : Int
  tm_mon : Int
  tm_mday : Int

/-- Decimal digits (ASCII) of `n`, most significant first; `fuel` bounds the
number of digits. -/
def decimal : Nat → Nat → List Byte
  | 0, _ => []
  | fuel + 1, n => if n < 10 then [48 + n] else decimal fuel (n / 10) ++ [48 + n % 10]

/-- The conversion `%0<width>d` of `printf`: sign, then digits padded with
zeros up to the field width. -/
def fmt_0d (width : Nat) (v : Int) : List Byte :=
  let digits := decimal (v.natAbs + 1) v.natAbs
  if v < 0 then
    45 :: (List.replicate (width - 1 - digits.length) 48 ++ digits)
  else
    List.replicate (width - digits.length) 48 ++ digits

/-- ASCII codes of a string literal. -/
def ascii (s : String) : List Byte := s.toList.map Char.toNat

/-- The text `snprintf` formats for `block0->version`. -/
def version_text (local_t : tm) : List Byte :=
  ascii "JKV3:V3.01" ++ fmt_0d 4 (int32 (local_t.tm_year + 1900))
    ++ fmt_0d 2 (int32 (local_t.tm_mon + 1)) ++ fmt_0d 2 local_t.tm_mday

/-- The text `snprintf` formats for `block0->vendor`. -/
def vendor_text : List Byte := ascii "Nankai University and TianJin Jinke Corp"

/-- Store of a list of bytes at `firmware + dst`. -/
def write_list (mem : Mem) (dst : Int) (l : List Byte) : Mem :=
  fun a => if dst ≤ a ∧ a < dst + l.length then l.getD (a - dst).toNat 0 else mem a

/-- The call `snprintf(firmware + dst, size, ...)` with `size > 0`: at most
`size - 1` characters of the text, then a terminating NUL. -/
def snprintf (mem : Mem) (dst : Int) (size : Nat) (text : List Byte) : Mem :=
  write_list mem dst (text.take (size - 1) ++ [0])

/-- The conversion `__cpu_to_le32` followed by the store of the 32-bit word:
four bytes, least significant first. -/
def store_le32 (mem : Mem) (dst : Int) (v : Int) : Mem :=
  let w : Nat := (v % 4294967296).toNat
  write_list mem dst [w % 256, w / 256 % 256, w / 65536 % 256, w / 16777216 % 256]

/-- The loop `for(i = 1; i < end_block; ++i)` of `write_firmware_header`,
with `n` iterations left to run from `i`. -/
def checksum_loop (md5 : List Byte → Fin 16 → Byte) : Nat → Int → Mem → Mem
  | 0, _, mem => mem
  | n + 1, i, mem =>
    checksum_loop md5 n (int32 (i + 1))
      (md5_buffer md5 mem (int32 (i * BLOCK_SIZE)) BLOCK_SIZE (md5_sums_offset (int32 (i - 1))))

/-- The local `first_block_size` of `write_firmware_header`: the address of
`block0->md5_sums[end_block-1]` minus the address of `block0`, both as
`unsigned long`, stored in an `int`. -/
def first_block_size (end_block : Int) : Int :=
  int32 (size_t (md5_sums_offset (int32 (end_block - 1))))

/-- The function `write_firmware_header`: status and memory at return.
`localtime` is the result of `localtime(&t)`, `none` for `NULL`. -/
def write_firmware_header (md5 : List Byte → Fin 16 → Byte) (localtime : Option tm)
    (firmware : Mem) (end_block : Int) : Int × Mem :=
  match localtime with
  | none => (1, firmware)
  | some local_t =>
    let m1 := memset firmware version_offset 0 32
    let m2 := snprintf m1 version_offset (32 + 1) (version_text local_t)
    let m3 := memset m2 vendor_offset 0 40
    let m4 := snprintf m3 vendor_offset (40 + 1) vendor_text
    let m5 := store_le32 m4 data_blocks_offset (int32 (end_block - 1))
    let m6 := checksum_loop md5 (end_block - 1).toNat 1 m5
    let m7 := md5_buffer md5 m6 0 (size_t (first_block_size end_block))
      (md5_sums_offset (int32 (end_block - 1)))
    (0, m7)

/-- A file: its length and its bytes by offset (zero past the end). -/
structure file_t where
  size : Nat
  data : Nat → Byte

/-- The call `ftruncate(fd, length)`: the file gets the new length, bytes kept
up to the old length, zeros in an extension. -/
def ftruncate (f : file_t) (length : Int) : file_t :=
  ⟨length.toNat, fun k => if k < f.size ∧ (k : Int) < length then f.data k else 0⟩

/-- The file behind a `MAP_SHARED` mapping of its first `f.size` bytes at
`firmware`: its bytes are the bytes of the memory. -/
def mapped_file (f : file_t) (mem : Mem) : file_t :=
  ⟨f.size, fun k => if k < f.size then mem k else 0⟩

/-- The loop of `build_firmware` over the partitions: the file list holds the
names `filenames[i ..]`, so `i < nfiles` is the list being non-empty. The
status is `some 0` when the loop runs to its end, the non-zero `res` on which
`build_firmware` returns, or `none` when the process was killed in a call. -/
def write_partitions : List partition_t → List input_file → state → Option Int × state
  | [], _, s => (some 0, s)
  | _ :: ps, [], s => write_partitions ps [] s
  | p :: ps, f :: fs, s =>
    let r := put_file_to_image p s f
    if r.1 ≠ some 0 then r else write_partitions ps fs r.2

/-- What the system answers for the output path: whether `open`, the first
`ftruncate`, `mmap`, `munmap`, the final `ftruncate` and `close` succeed. -/
structure output_env where
  open_ok : Bool
  ftruncate_ok : Bool
  mmap_ok : Bool
  munmap_ok : Bool
  ftruncate_end_ok : Bool
  close_ok : Bool

/-- What `build_firmware` leaves: its return value (`none` when the process was
killed before it returned), the memory at `firmware`, the output file, the
global `firmware_end_block` and the number of input descriptors left open. -/
structure build_result where
  status : Option Int
  firmware : Mem
  out : file_t
  firmware_end_block : Int
  open_inputs : Nat

/-- The memory of a mapping before the program writes to it: the bytes of the
file, which `ftruncate` has just extended with zeros. -/
def fresh_mapping (f : file_t) : Mem := fun a => if 0 ≤ a then f.data a.toNat else 0

/-- The output file after `open` with `O_TRUNC` and the first `ftruncate`:
`layout->size * BLOCK_SIZE` bytes (a `size_t` product). -/
def sized_output (layout : layout_t) : file_t :=
  ftruncate ⟨0, fun _ => 0⟩ (size_t (layout.size * BLOCK_SIZE))

/-- The mapped memory after `memset(firmware, 0xff, layout->size * BLOCK_SIZE)`. -/
def erased_buffer (layout : layout_t) : Mem :=
  memset (fresh_mapping (sized_output layout)) 0 255 (size_t (layout.size * BLOCK_SIZE))

/-- The function `build_firmware`, entered with `firmware_end_block = 1` (its
initial value; `main` calls `build_firmware` once). -/
def build_firmware (md5 : List Byte → Fin 16 → Byte) (localtime : Option tm)
    (layout : layout_t) (files : List input_file) (env : output_env) : build_result :=
  let empty : file_t := ⟨0, fun _ => 0⟩
  if !env.open_ok then ⟨some 1, fresh_mapping empty, empty, 1, 0⟩ else
  if !env.ftruncate_ok then ⟨some 1, fresh_mapping empty, empty, 1, 0⟩ else
  let f0 := sized_output layout
  if !env.mmap_ok then ⟨some 1, fresh_mapping f0, f0, 1, 0⟩ else
  let m0 := erased_buffer layout
  let r := write_partitions layout.partitions files ⟨m0, 1, 0⟩
  if r.1 ≠ some 0 then
    ⟨r.1, r.2.firmware, mapped_file f0 r.2.firmware, r.2.firmware_end_block, r.2.open_inputs⟩
  else
  let h := write_firmware_header md5 localtime r.2.firmware r.2.firmware_end_block
  let f1 := mapped_file f0 h.2
  if h.1 ≠ 0 then ⟨some h.1, h.2, f1, r.2.firmware_end_block, r.2.open_inputs⟩ else
  if !env.munmap_ok then ⟨some 1, h.2, f1, r.2.firmware_end_block, r.2.open_inputs⟩ else
  if !env.ftruncate_end_ok then ⟨some 1, h.2, f1, r.2.firmware_end_block, r.2.open_inputs⟩ else
  let f2 := ftruncate f1 (int32 (r.2.firmware_end_block * BLOCK_SIZE))
  if !env.close_ok then ⟨some 1, h.2, f2, r.2.firmware_end_block, r.2.open_inputs⟩ else
  ⟨some 0, h.2, f2, r.2.firmware_end_block, r.2.open_inputs⟩

/-- The global `firmware_end_block` once the loop of `build_firmware` has
handled the first `j` partitions (with the first `j` file names). -/
def end_block_after (l : layout_t) (fs : List input_file) (j : Nat) : Int :=
  (write_partitions (l.partitions.take j) (fs.take j)
    ⟨erased_buffer l, 1, 0⟩).2.firmware_end_block

/-- The bytes `len` long at offset `off` of a file. -/
def file_bytes (f : file_t) (off len : Nat) : List Byte :=
  (List.range len).map (fun k => f.data (off + k))

/-- Partitions in ascending block order inside `[lo, hi)`: each starts at or
after `lo`, has a non-negative size, and the next starts at or after its end. -/
def ascending (lo hi : Int) : List partition_t → Bool
  | [] => true
  | p :: ps =>
    decide (lo ≤ p.offset) && decide (0 ≤ p.size) && decide (p.offset + p.size ≤ hi)
      && ascending (p.offset + p.size) hi ps

/-- Number of blocks that `n` bytes occupy: `n / BLOCK_SIZE` rounded up. -/
def blocks_of (n : Nat) : Nat := (n + BLOCK_SIZE - 1) / BLOCK_SIZE

/-- Every byte a partition write stores lies in blocks `[1, e)`: file `i` goes
to partition `i`, byte `k` of it to offset `partition_i.offset * BLOCK_SIZE + k`. -/
def written_inside (ps : List partition_t) (fs : List input_file) (e : Int) : Prop :=
  ∀ (i : Nat) (_ : i < ps.length) (_ : i < fs.length) (k : Nat), k < fs[i].st_size →
    (BLOCK_SIZE : Int) ≤ ps[i].offset * BLOCK_SIZE + k ∧
    ps[i].offset * BLOCK_SIZE + k < e * BLOCK_SIZE

/-- An input `n` bytes long, every byte `c`, whose system calls all succeed
(the mapping too when `n > 0`). -/
def plain_file (n : Nat) (c : Byte) : input_file :=
  ⟨true, true, n, true, fun _ => c, true, true⟩

/-- An output path whose system calls all succeed. -/
def output_ok : output_env := ⟨true, true, true, true, true, true⟩

/-- A stand-in digest for evaluating the definitions: the sum of the bytes
read plus the position in the digest, modulo 256. -/
def sum_digest (l : List Byte) (j : Fin 16) : Byte := (l.sum + j.val) % 256

/-- A date for evaluating the definitions: 2009-01-15 as `struct tm` holds it. -/
def sample_tm : tm := ⟨109, 0, 15⟩

/-! ## Machine arithmetic -/

theorem block_size_val : BLOCK_SIZE = 1048576 := by decide

theorem int32_of_range (x : Int) (h1 : -2147483648 ≤ x) (h2 : x < 2147483648) : int32 x = x := by
  unfold int32; omega

theorem int64_of_range (x : Int) (h1 : -9223372036854775808 ≤ x)
    (h2 : x < 9223372036854775808) : int64 x = x := by
  unfold int64; omega

theorem size_t_of_nat (n : Nat) (h : n < 18446744073709551616) : size_t (n : Int) = n := by
  unfold size_t; omega

theorem div_ceil_block (n : Nat) (h : n < 2147483648) :
    div_ceil (n : Int) (BLOCK_SIZE : Int) = (blocks_of n : Int) := by
  unfold div_ceil blocks_of
  rw [block_size_val]
  rw [int64_of_range ((n : Int) + ((1048576 : Nat) : Int)) (by omega) (by omega)]
  rw [int64_of_range ((n : Int) + ((1048576 : Nat) : Int) - 1) (by omega) (by omega)]
  rw [Int.tdiv_eq_ediv (by omega) (by omega)]
  omega

theorem blocks_of_le (n c : Nat) : blocks_of n ≤ c ↔ n ≤ c * BLOCK_SIZE := by
  unfold blocks_of
  rw [block_size_val]
  omega

theorem max_eq (a b : Int) : max a b = if b < a then a else b := by
  unfold max; rfl

/-! ## Partition Writer -/

theorem mmap_failed_false (f : input_file) :
    mmap_failed f = false ↔ 0 < f.st_size ∧ f.mmap_ok = true := by
  unfold mmap_failed
  cases f.mmap_ok <;> simp <;> omega

theorem put_file_to_image_ok (p : partition_t) (s : state) (f : input_file)
    (h : (put_file_to_image p s f).1 = some 0) :
    (f.open_ok = true ∧ f.fstat_ok = true ∧ mmap_failed f = false ∧ f.munmap_ok = true
      ∧ f.close_ok = true) ∧
    (f.st_size : Int) ≤ int32 (p.size * BLOCK_SIZE) ∧
    (put_file_to_image p s f).2 =
      ⟨memcpy s.firmware (int32 (p.offset * BLOCK_SIZE)) f.content (size_t f.st_size),
       int32 (max s.firmware_end_block (p.offset + div_ceil f.st_size BLOCK_SIZE)),
       s.open_inputs + 1 - 1⟩ := by
  unfold put_file_to_image at h ⊢
  by_cases hsz : (f.st_size : Int) > int32 (p.size * BLOCK_SIZE)
  · cases ho : f.open_ok <;> cases hf : f.fstat_ok <;> simp [ho, hf, hsz] at h
  · cases ho : f.open_ok <;> cases hf : f.fstat_ok <;> cases hm : mmap_failed f <;>
      cases hu : f.munmap_ok <;> cases hc : f.close_ok <;>
      simp [ho, hf, hm, hu, hc, hsz] at h ⊢
    omega

theorem block_size_int : ((BLOCK_SIZE : Nat) : Int) = 1048576 := by
  rw [block_size_val]; rfl

theorem blocks_of_le_int (n : Nat) (c : Int) (h : (n : Int) ≤ c * 1048576) :
    (blocks_of n : Int) ≤ c := by
  unfold blocks_of
  rw [block_size_val]
  omega

theorem blocks_of_cover (n : Nat) : (n : Int) ≤ (blocks_of n : Int) * 1048576 := by
  unfold blocks_of
  rw [block_size_val]
  omega

/-- Partition write on a partition inside the first 2047 blocks. -/
theorem put_file_to_image_fit (p : partition_t) (s : state) (f : input_file)
    (ho : 0 ≤ p.offset) (hs : 0 ≤ p.size) (hb : p.offset + p.size ≤ 2047)
    (he1 : 1 ≤ s.firmware_end_block) (he2 : s.firmware_end_block ≤ 2047)
    (h : (put_file_to_image p s f).1 = some 0) :
    (f.st_size : Int) ≤ p.size * BLOCK_SIZE ∧
    (put_file_to_image p s f).2.firmware
      = memcpy s.firmware (p.offset * BLOCK_SIZE) f.content f.st_size ∧
    (put_file_to_image p s f).2.firmware_end_block
      = max s.firmware_end_block (p.offset + blocks_of f.st_size) := by
  obtain ⟨_, hsz, hst⟩ := put_file_to_image_ok p s f h
  rw [hst]
  rw [block_size_int] at hsz ⊢
  rw [int32_of_range (p.size * 1048576) (by omega) (by omega)] at hsz
  rw [int32_of_range (p.offset * 1048576) (by omega) (by omega)]
  have hn : f.st_size < 2147483648 := by omega
  have hd := div_ceil_block f.st_size hn
  rw [block_size_int] at hd
  rw [hd, size_t_of_nat f.st_size (by omega)]
  have hbl := blocks_of_le_int f.st_size p.size hsz
  refine ⟨hsz, rfl, ?_⟩
  simp only
  apply int32_of_range
  · rw [max_eq]; split_ifs <;> omega
  · rw [max_eq]; split_ifs <;> omega

theorem put_file_to_image_run (p : partition_t) (s : state) (f : input_file)
    (hf : f.open_ok = true ∧ f.fstat_ok = true ∧ mmap_failed f = false ∧ f.munmap_ok = true
      ∧ f.close_ok = true)
    (hsz : (f.st_size : Int) ≤ int32 (p.size * BLOCK_SIZE)) :
    put_file_to_image p s f =
      (some 0, ⟨memcpy s.firmware (int32 (p.offset * BLOCK_SIZE)) f.content (size_t f.st_size),
       int32 (max s.firmware_end_block (p.offset + div_ceil f.st_size BLOCK_SIZE)),
       s.open_inputs + 1 - 1⟩) := by
  obtain ⟨h1, h2, h3, h4, h5⟩ := hf
  unfold put_file_to_image
  have : ¬ ((f.st_size : Int) > int32 (p.size * BLOCK_SIZE)) := by omega
  simp [h1, h2, h3, h4, h5, this]

theorem write_partitions_no_files (ps : List partition_t) (s : state) :
    write_partitions ps [] s = (some 0, s) := by
  induction ps with
  | nil => rfl
  | cons p ps ih => simpa [write_partitions] using ih

theorem write_partitions_cons (p : partition_t) (ps : List partition_t) (f : input_file)
    (fs : List input_file) (s : state) (h : (write_partitions (p :: ps) (f :: fs) s).1 = some 0) :
    (put_file_to_image p s f).1 = some 0 ∧
    write_partitions (p :: ps) (f :: fs) s
      = write_partitions ps fs (put_file_to_image p s f).2 := by
  have e : write_partitions (p :: ps) (f :: fs) s
      = if (put_file_to_image p s f).1 ≠ some 0 then put_file_to_image p s f
        else write_partitions ps fs (put_file_to_image p s f).2 := by
    rw [write_partitions]
  rw [e] at h ⊢
  by_cases hq : (put_file_to_image p s f).1 = some 0
  · simp [hq]
  · simp [hq] at h

theorem ascending_cons (lo hi : Int) (p : partition_t) (ps : List partition_t)
    (h : ascending lo hi (p :: ps) = true) :
    lo ≤ p.offset ∧ 0 ≤ p.size ∧ p.offset + p.size ≤ hi
      ∧ ascending (p.offset + p.size) hi ps = true := by
  simpa [ascending, and_assoc] using h

/-- What a successful run of the partition loop leaves, for partitions in
ascending order inside the first 2047 blocks. -/
theorem write_partitions_ok (hi : Int) (hhi : hi ≤ 2047) :
    ∀ (ps : List partition_t) (fs : List input_file) (s : state) (lo : Int),
      0 ≤ lo → ascending lo hi ps = true →
      1 ≤ s.firmware_end_block → s.firmware_end_block ≤ hi →
      (write_partitions ps fs s).1 = some 0 →
      (∀ i (hp : i < ps.length) (hf : i < fs.length),
        (fs[i].st_size : Int) ≤ ps[i].size * 1048576 ∧ lo ≤ ps[i].offset
          ∧ 0 ≤ ps[i].size ∧ ps[i].offset + ps[i].size ≤ hi) ∧
      (∀ a : Int, (∀ i (hp : i < ps.length) (hf : i < fs.length),
          ¬ (ps[i].offset * 1048576 ≤ a ∧ a < ps[i].offset * 1048576 + fs[i].st_size)) →
        (write_partitions ps fs s).2.firmware a = s.firmware a) ∧
      (∀ i (hp : i < ps.length) (hf : i < fs.length) (k : Nat), k < fs[i].st_size →
        (write_partitions ps fs s).2.firmware (ps[i].offset * 1048576 + k) = fs[i].content k) ∧
      s.firmware_end_block ≤ (write_partitions ps fs s).2.firmware_end_block ∧
      (write_partitions ps fs s).2.firmware_end_block ≤ hi ∧
      (∀ i (hp : i < ps.length) (hf : i < fs.length),
        ps[i].offset + blocks_of fs[i].st_size
          ≤ (write_partitions ps fs s).2.firmware_end_block) ∧
      ((write_partitions ps fs s).2.firmware_end_block = s.firmware_end_block ∨
        ∃ i, ∃ (hp : i < ps.length) (hf : i < fs.length),
          (write_partitions ps fs s).2.firmware_end_block
            = ps[i].offset + blocks_of fs[i].st_size) := by
  intro ps
  induction ps with
  | nil =>
    intro fs s lo _ _ _ he2 _
    simp [write_partitions, he2]
  | cons p ps ih =>
    intro fs s lo hlo hasc he1 he2 hok
    cases fs with
    | nil =>
      rw [write_partitions_no_files]
      simp [he2]
    | cons f fs =>
      obtain ⟨hq, hrec⟩ := write_partitions_cons p ps f fs s hok
      obtain ⟨hpo, hps, hpe, hrest⟩ := ascending_cons lo hi p ps hasc
      obtain ⟨hsz, hmem, hend⟩ :=
        put_file_to_image_fit p s f (by omega) hps (by omega) he1 (by omega) hq
      rw [block_size_int] at hsz hmem
      have hbl := blocks_of_le_int f.st_size p.size hsz
      have hq1 : 1 ≤ (put_file_to_image p s f).2.firmware_end_block := by
        rw [hend, max_eq]; split_ifs <;> omega
      have hq2 : (put_file_to_image p s f).2.firmware_end_block ≤ hi := by
        rw [hend, max_eq]; split_ifs <;> omega
      have hq3 : s.firmware_end_block ≤ (put_file_to_image p s f).2.firmware_end_block := by
        rw [hend, max_eq]; split_ifs <;> omega
      have hq4 : p.offset + blocks_of f.st_size
          ≤ (put_file_to_image p s f).2.firmware_end_block := by
        rw [hend, max_eq]; split_ifs <;> omega
      rw [hrec] at hok ⊢
      obtain ⟨i1, i2, i3, i4, i5, i6, i7⟩ :=
        ih fs (put_file_to_image p s f).2 (p.offset + p.size) (by omega) hrest hq1 hq2 hok
      refine ⟨?_, ?_, ?_, by omega, i5, ?_, ?_⟩
      · intro i hp hf
        cases i with
        | zero => simp only [List.getElem_cons_zero]; omega
        | succ j =>
          simp only [List.getElem_cons_succ]
          have := i1 j (by simpa using hp) (by simpa using hf)
          omega
      · intro a ha
        have h0 := ha 0 (by simp) (by simp)
        simp only [List.getElem_cons_zero] at h0
        rw [i2 a, hmem]
        · unfold memcpy
          rw [if_neg h0]
        · intro j hp hf
          have := ha (j + 1) (by simpa using hp) (by simpa using hf)
          simpa only [List.getElem_cons_succ] using this
      · intro i hp hf k hk
        cases i with
        | zero =>
          simp only [List.getElem_cons_zero] at hk ⊢
          rw [i2, hmem]
          · unfold memcpy
            rw [if_pos (by omega)]
            congr 1
            omega
          · intro j hp hf
            have := i1 j hp hf
            omega
        | succ j =>
          simp only [List.getElem_cons_succ] at hk ⊢
          exact i3 j (by simpa using hp) (by simpa using hf) k hk
      · intro i hp hf
        cases i with
        | zero => simp only [List.getElem_cons_zero]; omega
        | succ j =>
          simp only [List.getElem_cons_succ]
          exact i6 j (by simpa using hp) (by simpa using hf)
      · rcases i7 with h7 | ⟨j, hp, hf, h7⟩
        · rw [h7, hend, max_eq]
          split_ifs
          · exact Or.inl rfl
          · exact Or.inr ⟨0, by simp, by simp, by simp⟩
        · exact Or.inr ⟨j + 1, by simpa using hp, by simpa using hf, by simpa using h7⟩

/-! ## Memory primitives and the checksum loop -/

theorem memset_outside (mem : Mem) (dst : Int) (c : Byte) (n : Nat) (a : Int)
    (h : a < dst ∨ dst + n ≤ a) : memset mem dst c n a = mem a := by
  unfold memset
  rw [if_neg (by omega)]

theorem memset_inside (mem : Mem) (dst : Int) (c : Byte) (n : Nat) (a : Int)
    (h1 : dst ≤ a) (h2 : a < dst + n) : memset mem dst c n a = c := by
  unfold memset
  rw [if_pos ⟨h1, h2⟩]

theorem write_list_outside (mem : Mem) (dst : Int) (l : List Byte) (a : Int)
    (h : a < dst ∨ dst + l.length ≤ a) : write_list mem dst l a = mem a := by
  unfold write_list
  rw [if_neg (by omega)]

theorem snprintf_outside (mem : Mem) (dst : Int) (size : Nat) (text : List Byte) (a : Int)
    (hs : 0 < size) (h : a < dst ∨ dst + size ≤ a) : snprintf mem dst size text a = mem a := by
  unfold snprintf
  apply write_list_outside
  have : (List.take (size - 1) text ++ [0]).length ≤ size := by
    simp only [List.length_append, List.length_take, List.length_singleton]
    omega
  omega

theorem store_le32_outside (mem : Mem) (dst v : Int) (a : Int)
    (h : a < dst ∨ dst + 4 ≤ a) : store_le32 mem dst v a = mem a := by
  unfold store_le32
  apply write_list_outside
  simp only [List.length_cons, List.length_nil]
  omega

theorem md5_buffer_outside (md5 : List Byte → Fin 16 → Byte) (mem : Mem) (buffer : Int)
    (len : Nat) (resblock a : Int) (h : a < resblock ∨ resblock + 16 ≤ a) :
    md5_buffer md5 mem buffer len resblock a = mem a := by
  unfold md5_buffer
  rw [dif_neg (by omega)]

theorem md5_buffer_inside (md5 : List Byte → Fin 16 → Byte) (mem : Mem) (buffer : Int)
    (len : Nat) (resblock : Int) (j : Fin 16) :
    md5_buffer md5 mem buffer len resblock (resblock + (j.val : Int))
      = md5 (read_bytes mem buffer len) j := by
  unfold md5_buffer
  have hj := j.isLt
  rw [dif_pos (by omega)]
  congr 1
  apply Fin.ext
  simp

theorem read_bytes_congr (m1 m2 : Mem) (p : Int) (len : Nat)
    (h : ∀ k : Nat, k < len → m1 (p + k) = m2 (p + k)) :
    read_bytes m1 p len = read_bytes m2 p len := by
  unfold read_bytes
  apply List.map_congr_left
  intro k hk
  exact h k (List.mem_range.mp hk)

theorem checksum_loop_outside (md5 : List Byte → Fin 16 → Byte) :
    ∀ (n : Nat) (i : Int) (mem : Mem) (a : Int), 1 ≤ i → i + n ≤ 2147483647 →
      (a < 76 + 16 * (i - 1) ∨ 76 + 16 * (i - 1 + n) ≤ a) →
      checksum_loop md5 n i mem a = mem a := by
  intro n
  induction n with
  | zero => intro i mem a _ _ _; rfl
  | succ n ih =>
    intro i mem a h1 h2 ha
    rw [checksum_loop, int32_of_range (i + 1) (by omega) (by omega),
      int32_of_range (i - 1) (by omega) (by omega)]
    rw [ih (i + 1) _ a (by omega) (by push_cast at h2; omega) (by push_cast at ha; omega)]
    apply md5_buffer_outside
    unfold md5_sums_offset
    push_cast at ha
    omega

theorem checksum_loop_slot (md5 : List Byte → Fin 16 → Byte) :
    ∀ (n : Nat) (i : Int) (mem : Mem) (k : Nat) (j : Fin 16), 1 ≤ i → i + n ≤ 2048 → k < n →
      checksum_loop md5 n i mem (76 + 16 * (i - 1 + k) + (j.val : Int))
        = md5 (read_bytes mem ((i + k) * 1048576) BLOCK_SIZE) j := by
  intro n
  induction n with
  | zero => intro i mem k j _ _ hk; omega
  | succ n ih =>
    intro i mem k j h1 h2 hk
    have hj := j.isLt
    push_cast at h2
    rw [checksum_loop, int32_of_range (i + 1) (by omega) (by omega),
      int32_of_range (i - 1) (by omega) (by omega), block_size_int,
      int32_of_range (i * 1048576) (by omega) (by omega)]
    cases k with
    | zero =>
      rw [checksum_loop_outside md5 n (i + 1) _ _ (by omega) (by omega) (by push_cast; omega)]
      have e : (76 : Int) + 16 * (i - 1 + ((0 : Nat) : Int)) + (j.val : Int)
          = md5_sums_offset (i - 1) + (j.val : Int) := by
        unfold md5_sums_offset; push_cast; omega
      rw [e, md5_buffer_inside]
      have e3 : (i + ((0 : Nat) : Int)) * 1048576 = i * 1048576 := by push_cast; omega
      rw [e3]
    | succ k =>
      have e : (76 : Int) + 16 * (i - 1 + ((k + 1 : Nat) : Int)) + (j.val : Int)
          = 76 + 16 * (i + 1 - 1 + (k : Int)) + (j.val : Int) := by
        push_cast; omega
      rw [e, ih (i + 1) _ k j (by omega) (by omega) (by omega)]
      have e2 : (i + ((k + 1 : Nat) : Int)) * 1048576 = (i + 1 + (k : Int)) * 1048576 := by
        push_cast; omega
      rw [e2]
      have hr : read_bytes (md5_buffer md5 mem (i * 1048576) BLOCK_SIZE (md5_sums_offset (i - 1)))
          ((i + 1 + (k : Int)) * 1048576) BLOCK_SIZE
          = read_bytes mem ((i + 1 + (k : Int)) * 1048576) BLOCK_SIZE := by
        apply read_bytes_congr
        intro t ht
        apply md5_buffer_outside
        unfold md5_sums_offset
        rw [block_size_val] at ht
        omega
      rw [hr]

/-! ## Header builder -/

/-- The header builder with a date at hand: the sequence of stores it makes. -/
theorem write_firmware_header_some (md5 : List Byte → Fin 16 → Byte) (t : tm) (fw : Mem)
    (E : Int) :
    write_firmware_header md5 (some t) fw E =
      (0, md5_buffer md5
        (checksum_loop md5 (E - 1).toNat 1
          (store_le32
            (snprintf (memset (snprintf (memset fw version_offset 0 32) version_offset (32 + 1)
              (version_text t)) vendor_offset 0 40) vendor_offset (40 + 1) vendor_text)
            data_blocks_offset (int32 (E - 1))))
        0 (size_t (first_block_size E)) (md5_sums_offset (int32 (E - 1)))) := rfl

theorem header_fields_outside (t : tm) (fw : Mem) (v : Int) (a : Int) (h : a < 0 ∨ 76 ≤ a) :
    store_le32
      (snprintf (memset (snprintf (memset fw version_offset 0 32) version_offset (32 + 1)
        (version_text t)) vendor_offset 0 40) vendor_offset (40 + 1) vendor_text)
      data_blocks_offset v a = fw a := by
  unfold version_offset vendor_offset data_blocks_offset
  rw [store_le32_outside _ _ _ _ (by omega), snprintf_outside _ _ _ _ _ (by omega) (by omega),
    memset_outside _ _ _ _ _ (by omega), snprintf_outside _ _ _ _ _ (by omega) (by omega),
    memset_outside _ _ _ _ _ (by omega)]

theorem first_block_size_eq (E : Int) (h1 : 1 ≤ E) (h2 : E ≤ 65531) :
    first_block_size E = 76 + 16 * (E - 1) := by
  unfold first_block_size md5_sums_offset
  rw [int32_of_range (E - 1) (by omega) (by omega)]
  unfold size_t int32
  omega

theorem write_firmware_header_outside (md5 : List Byte → Fin 16 → Byte) (t : tm) (fw : Mem)
    (E : Int) (h1 : 1 ≤ E) (h2 : E ≤ 65531) (a : Int) (h : a < 0 ∨ 76 + 16 * E ≤ a) :
    (write_firmware_header md5 (some t) fw E).2 a = fw a := by
  rw [write_firmware_header_some]
  simp only
  rw [int32_of_range (E - 1) (by omega) (by omega)]
  rw [md5_buffer_outside _ _ _ _ _ _ (by unfold md5_sums_offset; omega)]
  rw [checksum_loop_outside md5 _ 1 _ a (by omega) (by omega) (by omega)]
  exact header_fields_outside t fw _ a (by omega)

theorem write_firmware_header_last (md5 : List Byte → Fin 16 → Byte) (t : tm) (fw : Mem)
    (E : Int) (h1 : 1 ≤ E) (h2 : E ≤ 65531) (j : Fin 16) :
    (write_firmware_header md5 (some t) fw E).2 (76 + 16 * (E - 1) + (j.val : Int))
      = md5 (read_bytes (write_firmware_header md5 (some t) fw E).2 0
          (76 + 16 * (E - 1)).toNat) j := by
  rw [write_firmware_header_some]
  simp only
  rw [first_block_size_eq E h1 h2, int32_of_range (E - 1) (by omega) (by omega)]
  have hlen : size_t (76 + 16 * (E - 1)) = (76 + 16 * (E - 1)).toNat := by
    unfold size_t; omega
  rw [hlen]
  have e : (76 : Int) + 16 * (E - 1) + (j.val : Int)
      = md5_sums_offset (E - 1) + (j.val : Int) := by
    unfold md5_sums_offset; rfl
  rw [e, md5_buffer_inside]
  have hr : ∀ m : Mem, read_bytes (md5_buffer md5 m 0 (76 + 16 * (E - 1)).toNat
        (md5_sums_offset (E - 1))) 0 (76 + 16 * (E - 1)).toNat
      = read_bytes m 0 (76 + 16 * (E - 1)).toNat := by
    intro m
    apply read_bytes_congr
    intro k hk
    apply md5_buffer_outside
    unfold md5_sums_offset
    omega
  rw [hr]

theorem write_firmware_header_slot (md5 : List Byte → Fin 16 → Byte) (t : tm) (fw : Mem)
    (E : Int) (h1 : 1 ≤ E) (h2 : E ≤ 2048) (i : Nat) (hi1 : 1 ≤ i) (hi2 : (i : Int) < E)
    (j : Fin 16) :
    (write_firmware_header md5 (some t) fw E).2 (76 + 16 * ((i : Int) - 1) + (j.val : Int))
      = md5 (read_bytes (write_firmware_header md5 (some t) fw E).2
          ((i : Int) * 1048576) BLOCK_SIZE) j := by
  have hj := j.isLt
  have hr : read_bytes (write_firmware_header md5 (some t) fw E).2 ((i : Int) * 1048576)
      BLOCK_SIZE = read_bytes fw ((i : Int) * 1048576) BLOCK_SIZE := by
    apply read_bytes_congr
    intro k hk
    apply write_firmware_header_outside md5 t fw E h1 (by omega)
    omega
  rw [hr, write_firmware_header_some]
  simp only
  rw [int32_of_range (E - 1) (by omega) (by omega)]
  rw [md5_buffer_outside _ _ _ _ _ _ (by unfold md5_sums_offset; omega)]
  have e : (76 : Int) + 16 * ((i : Int) - 1) + (j.val : Int)
      = 76 + 16 * ((1 : Int) - 1 + ((i - 1 : Nat) : Int)) + (j.val : Int) := by
    omega
  rw [e, checksum_loop_slot md5 _ 1 _ (i - 1) j (by omega) (by omega) (by omega)]
  have e2 : ((1 : Int) + ((i - 1 : Nat) : Int)) * 1048576 = (i : Int) * 1048576 := by
    omega
  rw [e2]
  have hr2 : ∀ v : Int, read_bytes (store_le32
      (snprintf (memset (snprintf (memset fw version_offset 0 32) version_offset (32 + 1)
        (version_text t)) vendor_offset 0 40) vendor_offset (40 + 1) vendor_text)
      data_blocks_offset v) ((i : Int) * 1048576) BLOCK_SIZE
      = read_bytes fw ((i : Int) * 1048576) BLOCK_SIZE := by
    intro v
    apply read_bytes_congr
    intro k hk
    apply header_fields_outside
    omega
  rw [hr2]

/-! ## Image assembler -/

theorem write_firmware_header_none (md5 : List Byte → Fin 16 → Byte) (fw : Mem) (E : Int) :
    write_firmware_header md5 none fw E = (1, fw) := rfl

/-- A build that returns 0 ran every step: the partition loop returned 0, the
clock gave a date, and the output is the mapped memory cut at the End Block. -/
theorem build_firmware_ok (md5 : List Byte → Fin 16 → Byte) (lt : Option tm) (l : layout_t)
    (fs : List input_file) (env : output_env)
    (h : (build_firmware md5 lt l fs env).status = some 0) :
    ∃ t : tm, lt = some t ∧
      (write_partitions l.partitions fs ⟨erased_buffer l, 1, 0⟩).1 = some 0 ∧
      (build_firmware md5 lt l fs env).firmware
        = (write_firmware_header md5 (some t)
            (write_partitions l.partitions fs ⟨erased_buffer l, 1, 0⟩).2.firmware
            (write_partitions l.partitions fs ⟨erased_buffer l, 1, 0⟩).2.firmware_end_block).2 ∧
      (build_firmware md5 lt l fs env).firmware_end_block
        = (write_partitions l.partitions fs ⟨erased_buffer l, 1, 0⟩).2.firmware_end_block ∧
      (build_firmware md5 lt l fs env).out
        = ftruncate (mapped_file (sized_output l) (build_firmware md5 lt l fs env).firmware)
            (int32 ((build_firmware md5 lt l fs env).firmware_end_block * BLOCK_SIZE)) := by
  obtain ⟨o, ft, mm, mu, fe, cl⟩ := env
  by_cases hw : (write_partitions l.partitions fs ⟨erased_buffer l, 1, 0⟩).1 = some 0
  · cases lt with
    | none =>
      unfold build_firmware at h
      cases o <;> cases ft <;> cases mm <;> simp [hw, write_firmware_header_none] at h
    | some t =>
      refine ⟨t, rfl, hw, ?_⟩
      unfold build_firmware at h ⊢
      cases o <;> cases ft <;> cases mm <;> cases mu <;> cases fe <;> cases cl <;>
        simp [hw, write_firmware_header_some] at h ⊢
  · unfold build_firmware at h
    cases o <;> cases ft <;> cases mm <;> simp [hw] at h

/-! ## Builds on the catalog layouts -/

theorem catalog_ascending : ∀ l ∈ layouts, l.size = 64 ∧ ascending 1 64 l.partitions = true := by
  decide

theorem size_t_device : size_t (((64 : Nat) : Int) * 1048576) = 67108864 := by
  decide

theorem erased_buffer_catalog (l : layout_t) (hl : l ∈ layouts) (a : Int) :
    erased_buffer l a = if 0 ≤ a ∧ a < 67108864 then 255 else 0 := by
  obtain ⟨hs, _⟩ := catalog_ascending l hl
  unfold erased_buffer memset fresh_mapping sized_output ftruncate
  rw [hs, block_size_int, size_t_device]
  by_cases h : 0 ≤ a ∧ a < 67108864
  · rw [if_pos (by omega), if_pos h]
  · rw [if_neg (by omega), if_neg h]
    simp

/-- The partition loop of a successful build on a catalog layout. -/
theorem build_firmware_loop (md5 : List Byte → Fin 16 → Byte) (lt : Option tm) (l : layout_t)
    (hl : l ∈ layouts) (fs : List input_file) (env : output_env)
    (h : (build_firmware md5 lt l fs env).status = some 0) :
    (write_partitions l.partitions fs ⟨erased_buffer l, 1, 0⟩).1 = some 0 ∧
    ascending 1 64 l.partitions = true ∧
    (build_firmware md5 lt l fs env).firmware_end_block
      = (write_partitions l.partitions fs ⟨erased_buffer l, 1, 0⟩).2.firmware_end_block ∧
    1 ≤ (build_firmware md5 lt l fs env).firmware_end_block ∧
    (build_firmware md5 lt l fs env).firmware_end_block ≤ 64 := by
  obtain ⟨t, _, hw, _, he, _⟩ := build_firmware_ok md5 lt l fs env h
  obtain ⟨_, hasc⟩ := catalog_ascending l hl
  obtain ⟨_, _, _, w4, w5, _, _⟩ :=
    write_partitions_ok 64 (by omega) l.partitions fs ⟨erased_buffer l, 1, 0⟩ 1 (by omega) hasc
      (by simp) (by simp) hw
  simp only at w4
  refine ⟨hw, hasc, he, ?_, ?_⟩ <;> omega

/-- The output file of a successful build on a catalog layout: its length is
the End Block in bytes and its bytes are those of the mapped memory. -/
theorem build_firmware_out (md5 : List Byte → Fin 16 → Byte) (lt : Option tm) (l : layout_t)
    (hl : l ∈ layouts) (fs : List input_file) (env : output_env)
    (h : (build_firmware md5 lt l fs env).status = some 0) :
    ((build_firmware md5 lt l fs env).out.size : Int)
      = (build_firmware md5 lt l fs env).firmware_end_block * 1048576 ∧
    ∀ k : Nat, (k : Int) < (build_firmware md5 lt l fs env).firmware_end_block * 1048576 →
      (build_firmware md5 lt l fs env).out.data k
        = (build_firmware md5 lt l fs env).firmware k := by
  obtain ⟨t, _, _, _, _, ho⟩ := build_firmware_ok md5 lt l fs env h
  obtain ⟨_, _, _, h1, h2⟩ := build_firmware_loop md5 lt l hl fs env h
  obtain ⟨hs, _⟩ := catalog_ascending l hl
  rw [ho]
  unfold ftruncate mapped_file sized_output ftruncate
  rw [hs, block_size_int, size_t_device,
    int32_of_range _ (by omega) (by omega)]
  constructor
  · simp only
    omega
  · intro k hk
    simp only
    rw [if_pos (by omega), if_pos (by omega)]

/-! ## Properties of the assembled image -/

theorem file_bytes_eq_read_bytes (f : file_t) (mem : Mem) (off len : Nat)
    (h : ∀ k : Nat, k < len → f.data (off + k) = mem ((off : Int) + (k : Int))) :
    file_bytes f off len = read_bytes mem off len := by
  unfold file_bytes read_bytes
  apply List.map_congr_left
  intro k hk
  exact h k (List.mem_range.mp hk)

/-- C1: after a successful build on a catalog layout with final End Block `E`,
for every block index `i` with `1 ≤ i < E` block `i` lies inside the final
image and the 16 bytes of checksum slot `i - 1` (image offset
`76 + 16 * (i - 1)`) are the digest of bytes
`[i * BLOCK_SIZE, (i + 1) * BLOCK_SIZE)` of the final image. -/
theorem data_block_checksums (md5 : List Byte → Fin 16 → Byte) (lt : Option tm) (l : layout_t)
    (hl : l ∈ layouts) (fs : List input_file) (env : output_env)
    (h : (build_firmware md5 lt l fs env).status = some 0) (i : Nat) (h1 : 1 ≤ i)
    (h2 : (i : Int) < (build_firmware md5 lt l fs env).firmware_end_block) :
    (i + 1) * BLOCK_SIZE ≤ (build_firmware md5 lt l fs env).out.size ∧
    ∀ j : Fin 16,
      (build_firmware md5 lt l fs env).out.data (76 + 16 * (i - 1) + j.val)
        = md5 (file_bytes (build_firmware md5 lt l fs env).out (i * BLOCK_SIZE) BLOCK_SIZE) j := by
  obtain ⟨t, _, _, hfw, he, _⟩ := build_firmware_ok md5 lt l fs env h
  obtain ⟨_, _, _, e1, e2⟩ := build_firmware_loop md5 lt l hl fs env h
  obtain ⟨hsize, hdata⟩ := build_firmware_out md5 lt l hl fs env h
  constructor
  · rw [block_size_val]; omega
  · intro j
    have hj := j.isLt
    have hb : file_bytes (build_firmware md5 lt l fs env).out (i * BLOCK_SIZE) BLOCK_SIZE
        = read_bytes (build_firmware md5 lt l fs env).firmware ((i : Int) * 1048576)
            BLOCK_SIZE := by
      have := file_bytes_eq_read_bytes (build_firmware md5 lt l fs env).out
        (build_firmware md5 lt l fs env).firmware (i * BLOCK_SIZE) BLOCK_SIZE (by
          intro k hk
          rw [hdata _ (by rw [block_size_val] at hk ⊢; omega)]
          congr 1)
      rw [this, block_size_val]
      congr 1
    rw [hb, hdata _ (by omega)]
    have ha : (((76 + 16 * (i - 1) + j.val : Nat)) : Int)
        = 76 + 16 * ((i : Int) - 1) + (j.val : Int) := by omega
    rw [ha, hfw, ← he]
    exact write_firmware_header_slot md5 t _ _ e1 (by omega) i h1 h2 j

/-- Witness for `data_block_checksums`: the OpenInkpot layout with a 3-byte
kernel, block 1. -/
theorem data_block_checksums_witness :
    (1 + 1) * BLOCK_SIZE
      ≤ (build_firmware sum_digest (some sample_tm) layout_oi [plain_file 3 7] output_ok).out.size ∧
    ∀ j : Fin 16,
      (build_firmware sum_digest (some sample_tm) layout_oi [plain_file 3 7] output_ok).out.data
          (76 + 16 * (1 - 1) + j.val)
        = sum_digest (file_bytes
            (build_firmware sum_digest (some sample_tm) layout_oi [plain_file 3 7] output_ok).out
            (1 * BLOCK_SIZE) BLOCK_SIZE) j :=
  data_block_checksums sum_digest (some sample_tm) layout_oi (List.mem_cons_self _ _)
    [plain_file 3 7] output_ok (by decide) 1 (by decide) (by decide)

/-- C2: for every buffer, every date the clock returns and every End Block `E`
with `1 ≤ E ≤ 65531`, `write_firmware_header` returns 0, the length
`first_block_size` it computes is exactly `76 + 16 * (E - 1)`, and afterwards
checksum slot `E - 1` (header bytes `[76 + 16 * (E - 1), 76 + 16 * E)`) is the
digest of the final header bytes `[0, 76 + 16 * (E - 1))`. -/
theorem header_self_checksum (md5 : List Byte → Fin 16 → Byte) (t : tm) (fw : Mem) (E : Int)
    (h1 : 1 ≤ E) (h2 : E ≤ 65531) :
    (write_firmware_header md5 (some t) fw E).1 = 0 ∧
    first_block_size E = 76 + 16 * (E - 1) ∧
    ∀ j : Fin 16,
      (write_firmware_header md5 (some t) fw E).2 (76 + 16 * (E - 1) + (j.val : Int))
        = md5 (read_bytes (write_firmware_header md5 (some t) fw E).2 0
            (76 + 16 * (E - 1)).toNat) j :=
  ⟨rfl, first_block_size_eq E h1 h2, write_firmware_header_last md5 t fw E h1 h2⟩

/-- Witness for `header_self_checksum`: an erased buffer and End Block 3. -/
theorem header_self_checksum_witness :
    (write_firmware_header sum_digest (some sample_tm) (fun _ => 255) 3).1 = 0 ∧
    first_block_size 3 = 76 + 16 * (3 - 1) ∧
    ∀ j : Fin 16,
      (write_firmware_header sum_digest (some sample_tm) (fun _ => 255) 3).2
          (76 + 16 * (3 - 1) + (j.val : Int))
        = sum_digest (read_bytes
            (write_firmware_header sum_digest (some sample_tm) (fun _ => 255) 3).2 0
            (76 + 16 * (3 - 1) : Int).toNat) j :=
  header_self_checksum sum_digest sample_tm (fun _ => 255) 3 (by decide) (by decide)

/-- C3: after a successful build on a catalog layout, for every `i` below both
the number of input files and the number of partitions and every `k` below
the size of file `i`, the final (truncated) image is long enough to hold
offset `partition_i.offset * BLOCK_SIZE + k` and holds byte `k` of file `i`
there. -/
theorem files_land_in_partitions (md5 : List Byte → Fin 16 → Byte) (lt : Option tm)
    (l : layout_t) (hl : l ∈ layouts) (fs : List input_file) (env : output_env)
    (h : (build_firmware md5 lt l fs env).status = some 0)
    (i : Nat) (hp : i < l.partitions.length) (hf : i < fs.length)
    (k : Nat) (hk : k < fs[i].st_size) :
    l.partitions[i].offset.toNat * BLOCK_SIZE + k
      < (build_firmware md5 lt l fs env).out.size ∧
    (build_firmware md5 lt l fs env).out.data (l.partitions[i].offset.toNat * BLOCK_SIZE + k)
      = fs[i].content k := by
  obtain ⟨t, _, hw, hfw, he, _⟩ := build_firmware_ok md5 lt l fs env h
  obtain ⟨_, hasc, _, e1, e2⟩ := build_firmware_loop md5 lt l hl fs env h
  obtain ⟨hsize, hdata⟩ := build_firmware_out md5 lt l hl fs env h
  obtain ⟨w1, _, w3, _, _, w6, _⟩ :=
    write_partitions_ok 64 (by omega) l.partitions fs ⟨erased_buffer l, 1, 0⟩ 1 (by omega) hasc
      (by simp) (by simp) hw
  have a1 := w1 i hp hf
  have a3 := w3 i hp hf k hk
  have a6 := w6 i hp hf
  rw [← he] at a6
  have hc := blocks_of_cover fs[i].st_size
  rw [block_size_val]
  have haddr : ((l.partitions[i].offset.toNat * 1048576 + k : Nat) : Int)
      = l.partitions[i].offset * 1048576 + (k : Int) := by omega
  have hlt : ((l.partitions[i].offset.toNat * 1048576 + k : Nat) : Int)
      < (build_firmware md5 lt l fs env).firmware_end_block * 1048576 := by omega
  constructor
  · omega
  · rw [hdata _ hlt, haddr, hfw, ← he,
      write_firmware_header_outside md5 t _ _ e1 (by omega) _ (by omega)]
    exact a3

/-- Witness for `files_land_in_partitions`: the Hanlin layout with a 3-byte
kernel and a 5-byte rofs, second file, last byte. -/
theorem files_land_in_partitions_witness :
    (2 : Int).toNat * BLOCK_SIZE + 4
      < (build_firmware sum_digest (some sample_tm) layout_hanlin
          [plain_file 3 7, ⟨true, true, 5, true, fun k => 10 + k, true, true⟩] output_ok).out.size ∧
    (build_firmware sum_digest (some sample_tm) layout_hanlin
        [plain_file 3 7, ⟨true, true, 5, true, fun k => 10 + k, true, true⟩] output_ok).out.data
        ((2 : Int).toNat * BLOCK_SIZE + 4) = 14 :=
  files_land_in_partitions sum_digest (some sample_tm) layout_hanlin
    (List.mem_cons_of_mem _ (List.mem_cons_self _ _))
    [plain_file 3 7, ⟨true, true, 5, true, fun k => 10 + k, true, true⟩] output_ok (by decide)
    1 (by decide) (by decide) 4 (by decide)

theorem memcpy_inside (mem : Mem) (dst : Int) (src : Nat → Byte) (n k : Nat) (hk : k < n) :
    memcpy mem dst src n (dst + (k : Int)) = src k := by
  unfold memcpy
  rw [if_pos (by omega)]
  congr 1
  omega

/-- A file larger than what the size check computes is rejected before any
store to the buffer or to `firmware_end_block`. -/
theorem put_file_to_image_rejects (p : partition_t) (s : state) (f : input_file)
    (h : (f.st_size : Int) > int32 (p.size * BLOCK_SIZE)) :
    (put_file_to_image p s f).1 = some 1 ∧ (put_file_to_image p s f).2.firmware = s.firmware ∧
    (put_file_to_image p s f).2.firmware_end_block = s.firmware_end_block := by
  unfold put_file_to_image
  cases f.open_ok <;> cases f.fstat_ok <;> simp [h]

/-- C4 (amended): for every partition whose capacity `size * BLOCK_SIZE` is
representable as a C `int` (`-2048 ≤ size ≤ 2047`, which holds for every catalog
partition), every state and every input: a file larger than the capacity makes
`put_file_to_image` return 1 with the buffer and the End Block unchanged; a
file of exactly the capacity, when the input's system calls (`open`, `fstat`,
`mmap`, `munmap`, `close`) succeed, makes it return 0 with all `file_size`
bytes copied to
`firmware + partition->offset * BLOCK_SIZE`. -/
theorem size_check_within_int (p : partition_t) (s : state) (f : input_file)
    (hp1 : -2048 ≤ p.size) (hp2 : p.size ≤ 2047) :
    ((f.st_size : Int) > p.size * BLOCK_SIZE →
      (put_file_to_image p s f).1 = some 1 ∧ (put_file_to_image p s f).2.firmware = s.firmware ∧
      (put_file_to_image p s f).2.firmware_end_block = s.firmware_end_block) ∧
    ((f.st_size : Int) = p.size * BLOCK_SIZE →
      (f.open_ok = true ∧ f.fstat_ok = true ∧ mmap_failed f = false ∧ f.munmap_ok = true
        ∧ f.close_ok = true) →
      (put_file_to_image p s f).1 = some 0 ∧
      ∀ k : Nat, k < f.st_size →
        (put_file_to_image p s f).2.firmware (int32 (p.offset * BLOCK_SIZE) + (k : Int))
          = f.content k) := by
  have hcap : int32 (p.size * BLOCK_SIZE) = p.size * BLOCK_SIZE := by
    rw [block_size_int]
    exact int32_of_range _ (by omega) (by omega)
  constructor
  · intro h
    exact put_file_to_image_rejects p s f (by rw [hcap]; exact h)
  · intro h hf
    rw [put_file_to_image_run p s f hf (by rw [hcap]; omega)]
    refine ⟨rfl, ?_⟩
    intro k hk
    simp only
    rw [block_size_int] at h
    rw [size_t_of_nat _ (by omega)]
    exact memcpy_inside _ _ _ _ _ hk

/-- Witness for `size_check_within_int`: the kernel partition (1 block) and a
file of exactly one block. -/
theorem size_check_within_int_witness :
    (put_file_to_image ⟨"kernel", "zImage", 1, 1⟩ ⟨fun _ => 255, 1, 0⟩
      (plain_file 1048576 9)).1 = some 0 ∧
    ∀ k : Nat, k < (plain_file 1048576 9).st_size →
      (put_file_to_image ⟨"kernel", "zImage", 1, 1⟩ ⟨fun _ => 255, 1, 0⟩
        (plain_file 1048576 9)).2.firmware
          (int32 ((⟨"kernel", "zImage", 1, 1⟩ : partition_t).offset * BLOCK_SIZE) + (k : Int))
        = (plain_file 1048576 9).content k :=
  (size_check_within_int ⟨"kernel", "zImage", 1, 1⟩ ⟨fun _ => 255, 1, 0⟩ (plain_file 1048576 9)
    (by decide) (by decide)).2 (by decide) (by decide)

/-- C4 (as stated) fails: for a partition of 2048 blocks the `int` product
`size * BLOCK_SIZE` wraps to `-2147483648`, so a file of exactly
`size * BLOCK_SIZE` bytes, all of whose system calls succeed, is rejected. -/
theorem boundary_file_rejected_at_2048_blocks :
    ((plain_file 2147483648 0).st_size : Int)
        = (⟨"big", "2048 blocks", 1, 2048⟩ : partition_t).size * BLOCK_SIZE ∧
    (put_file_to_image ⟨"big", "2048 blocks", 1, 2048⟩ ⟨fun _ => 255, 1, 0⟩
      (plain_file 2147483648 0)).1 = some 1 := by
  decide

theorem write_partitions_take (n : Nat) :
    ∀ (ps : List partition_t) (fs : List input_file) (s : state), fs.length ≤ n →
      write_partitions ps fs s = write_partitions (ps.take n) fs s := by
  induction n with
  | zero =>
    intro ps fs s h
    have : fs = [] := List.length_eq_zero.mp (by omega)
    subst this
    rw [write_partitions_no_files, write_partitions_no_files]
  | succ n ih =>
    intro ps fs s h
    cases ps with
    | nil => rfl
    | cons p ps =>
      cases fs with
      | nil => rw [write_partitions_no_files, write_partitions_no_files]
      | cons f fs =>
        rw [List.take_succ_cons, write_partitions, write_partitions]
        by_cases hq : (put_file_to_image p s f).1 = some 0
        · simp only [hq, ne_eq, not_true_eq_false, if_false]
          exact ih ps fs _ (by simpa using h)
        · simp only [hq, ne_eq, not_false_eq_true, if_true]

theorem blocks_of_one_block : blocks_of BLOCK_SIZE = 1 := by decide

theorem blocks_of_44_blocks : blocks_of (44 * BLOCK_SIZE) = 44 := by decide

theorem ascending_first_three (ps : List partition_t)
    (h : ps.map (fun p => (p.offset, p.size)) = [(1, 1), (2, 6), (8, 44)]) :
    ascending 1 52 ps = true ∧ ∃ a b c, ps = [a, b, c] ∧ a.offset = 1 ∧ c.offset = 8 := by
  rcases ps with _ | ⟨a, _ | ⟨b, _ | ⟨c, _ | ⟨d, r⟩⟩⟩⟩
  all_goals try (simp at h; done)
  simp only [List.map_cons, List.map_nil, List.cons.injEq, Prod.mk.injEq, and_true] at h
  obtain ⟨⟨a1, a2⟩, ⟨b1, b2⟩, c1, c2⟩ := h
  refine ⟨?_, a, b, c, rfl, a1, c1⟩
  simp [ascending, a1, a2, b1, b2, c1, c2]

/-- C5: after a successful build on a catalog layout the final End Block is
`max(1, max over i of (partition_i.offset + ceil(s_i / BLOCK_SIZE)))`, `i`
ranging over the partitions that received a file: it is at least 1, at least
every such term, and equal to 1 or to one of the terms. For a layout whose
first three partitions are at offsets 1, 2, 8 with sizes 1, 6, 44, a
successful build with only the first file, of exactly one block, ends with
End Block 2, and one with three files, the third of exactly 44 blocks, ends
with End Block 52. -/
theorem end_block_formula :
    (∀ (md5 : List Byte → Fin 16 → Byte) (lt : Option tm) (l : layout_t), l ∈ layouts →
      ∀ (fs : List input_file) (env : output_env),
        (build_firmware md5 lt l fs env).status = some 0 →
        1 ≤ (build_firmware md5 lt l fs env).firmware_end_block ∧
        (∀ i (hp : i < l.partitions.length) (hf : i < fs.length),
          l.partitions[i].offset + blocks_of fs[i].st_size
            ≤ (build_firmware md5 lt l fs env).firmware_end_block) ∧
        ((build_firmware md5 lt l fs env).firmware_end_block = 1 ∨
          ∃ i, ∃ (hp : i < l.partitions.length) (hf : i < fs.length),
            (build_firmware md5 lt l fs env).firmware_end_block
              = l.partitions[i].offset + blocks_of fs[i].st_size)) ∧
    (∀ (md5 : List Byte → Fin 16 → Byte) (lt : Option tm) (l : layout_t)
      (f : input_file) (env : output_env),
        (l.partitions.take 3).map (fun p => (p.offset, p.size)) = [(1, 1), (2, 6), (8, 44)] →
        (build_firmware md5 lt l [f] env).status = some 0 →
        f.st_size = BLOCK_SIZE →
        (build_firmware md5 lt l [f] env).firmware_end_block = 2) ∧
    (∀ (md5 : List Byte → Fin 16 → Byte) (lt : Option tm) (l : layout_t)
      (f0 f1 f2 : input_file) (env : output_env),
        (l.partitions.take 3).map (fun p => (p.offset, p.size)) = [(1, 1), (2, 6), (8, 44)] →
        (build_firmware md5 lt l [f0, f1, f2] env).status = some 0 →
        f2.st_size = 44 * BLOCK_SIZE →
        (build_firmware md5 lt l [f0, f1, f2] env).firmware_end_block = 52) := by
  refine ⟨?_, ?_, ?_⟩
  · intro md5 lt l hl fs env h
    obtain ⟨hw, hasc, he, e1, _⟩ := build_firmware_loop md5 lt l hl fs env h
    obtain ⟨_, _, _, _, _, w6, w7⟩ :=
      write_partitions_ok 64 (by omega) l.partitions fs ⟨erased_buffer l, 1, 0⟩ 1 (by omega) hasc
        (by simp) (by simp) hw
    rw [he]
    exact ⟨by rw [← he]; exact e1, w6, w7⟩
  · intro md5 lt l f env hgeo h hsz
    obtain ⟨t, _, hw, _, he, _⟩ := build_firmware_ok md5 lt l [f] env h
    obtain ⟨hasc, a, b, c, hps, ha, _⟩ := ascending_first_three _ hgeo
    rw [he]
    rw [write_partitions_take 3 l.partitions [f] _ (by simp)] at hw ⊢
    rw [hps] at hasc hw ⊢
    obtain ⟨_, _, _, _, _, w6, w7⟩ :=
      write_partitions_ok 52 (by omega) [a, b, c] [f] ⟨erased_buffer l, 1, 0⟩ 1
        (by omega) hasc (by simp) (by simp) hw
    have h6 := w6 0 (by simp) (by simp)
    simp only [List.getElem_cons_zero, ha, hsz, blocks_of_one_block] at h6
    rcases w7 with h7 | ⟨i, hp, hf, h7⟩
    · simp only at h7
      omega
    · have hi : i = 0 := by simpa using hf
      subst hi
      simp only [List.getElem_cons_zero, ha, hsz, blocks_of_one_block] at h7
      omega
  · intro md5 lt l f0 f1 f2 env hgeo h hsz
    obtain ⟨t, _, hw, _, he, _⟩ := build_firmware_ok md5 lt l [f0, f1, f2] env h
    obtain ⟨hasc, a, b, c, hps, _, hc⟩ := ascending_first_three _ hgeo
    rw [he]
    rw [write_partitions_take 3 l.partitions [f0, f1, f2] _ (by simp)] at hw ⊢
    rw [hps] at hasc hw ⊢
    obtain ⟨_, _, _, _, w5, w6, _⟩ :=
      write_partitions_ok 52 (by omega) [a, b, c] [f0, f1, f2]
        ⟨erased_buffer l, 1, 0⟩ 1 (by omega) hasc (by simp) (by simp) hw
    have h6 := w6 2 (by simp) (by simp)
    simp only [List.getElem_cons_succ, List.getElem_cons_zero, hc, hsz,
      blocks_of_44_blocks] at h6
    omega

/-- Witness for `end_block_formula`: the Hanlin layout with a kernel of exactly
one block gives End Block 2; with three files, the third of exactly 44 blocks,
End Block 52. -/
theorem end_block_formula_witness :
    (build_firmware sum_digest (some sample_tm) layout_hanlin
      [plain_file BLOCK_SIZE 1] output_ok).firmware_end_block = 2 ∧
    (build_firmware sum_digest (some sample_tm) layout_hanlin
      [plain_file 10 1, plain_file 20 2, plain_file (44 * BLOCK_SIZE) 3]
      output_ok).firmware_end_block = 52 :=
  ⟨end_block_formula.2.1 sum_digest (some sample_tm) layout_hanlin (plain_file BLOCK_SIZE 1)
      output_ok (by decide) (by decide) rfl,
   end_block_formula.2.2 sum_digest (some sample_tm) layout_hanlin (plain_file 10 1)
      (plain_file 20 2) (plain_file (44 * BLOCK_SIZE) 3) output_ok (by decide) (by decide) rfl⟩

theorem blocks_of_minimal (n : Nat) (o e : Int) (hn : 0 < n)
    (h : o * 1048576 + ((n - 1 : Nat) : Int) < e * 1048576) : o + (blocks_of n : Int) ≤ e := by
  unfold blocks_of
  rw [block_size_val]
  omega

theorem blocks_of_zero : blocks_of 0 = 0 := by decide

/-- Every file that a successful run of the partition loop copied is
non-empty: mapping a file of length 0 fails, and then the call does not
return. -/
theorem write_partitions_nonempty :
    ∀ (ps : List partition_t) (fs : List input_file) (s : state),
      (write_partitions ps fs s).1 = some 0 →
      ∀ i (_ : i < ps.length) (hf : i < fs.length), 0 < fs[i].st_size := by
  intro ps
  induction ps with
  | nil => intro fs s _ i hp; simp at hp
  | cons p ps ih =>
    intro fs s hok i hp hf
    cases fs with
    | nil => simp at hf
    | cons f fs =>
      obtain ⟨hq, hrec⟩ := write_partitions_cons p ps f fs s hok
      rw [hrec] at hok
      cases i with
      | zero =>
        obtain ⟨⟨_, _, hm, _⟩, _⟩ := put_file_to_image_ok p s f hq
        simp only [List.getElem_cons_zero]
        exact ((mmap_failed_false f).mp hm).1
      | succ k =>
        simp only [List.getElem_cons_succ]
        exact ih fs _ hok k (by simpa using hp) (by simpa using hf)

/-- C6: after a successful build on a catalog layout the final End Block `E` is
the smallest block count `e ≥ 1` such that every byte written into the buffer
by a partition write lies at an offset in `[BLOCK_SIZE, e * BLOCK_SIZE)`:
`E ≥ 1`, every written byte lies in `[BLOCK_SIZE, E * BLOCK_SIZE)`, and every
`e ≥ 1` with that property is at least `E`. This holds for every input of a
successful build; none of them has a copied file of length 0, since mapping
such a file fails and the build then does not return. -/
theorem end_block_minimal (md5 : List Byte → Fin 16 → Byte) (lt : Option tm) (l : layout_t)
    (hl : l ∈ layouts) (fs : List input_file) (env : output_env)
    (h : (build_firmware md5 lt l fs env).status = some 0) :
    (1 ≤ (build_firmware md5 lt l fs env).firmware_end_block ∧
      written_inside l.partitions fs (build_firmware md5 lt l fs env).firmware_end_block) ∧
    (∀ e : Int, 1 ≤ e → written_inside l.partitions fs e →
      (build_firmware md5 lt l fs env).firmware_end_block ≤ e) ∧
    (∀ i (hf : i < fs.length), i < l.partitions.length → 0 < fs[i].st_size) := by
  obtain ⟨hw, hasc, he, e1, _⟩ := build_firmware_loop md5 lt l hl fs env h
  obtain ⟨w1, _, _, _, _, w6, w7⟩ :=
    write_partitions_ok 64 (by omega) l.partitions fs ⟨erased_buffer l, 1, 0⟩ 1 (by omega) hasc
      (by simp) (by simp) hw
  have hne := write_partitions_nonempty l.partitions fs ⟨erased_buffer l, 1, 0⟩ hw
  rw [← he] at w6 w7
  simp only at w7
  refine ⟨⟨e1, ?_⟩, ?_, ?_⟩
  · intro i hp hf k hk
    have a1 := w1 i hp hf
    have a6 := w6 i hp hf
    have hc := blocks_of_cover fs[i].st_size
    rw [block_size_int]
    constructor <;> omega
  · intro e he1 hin
    rcases w7 with h7 | ⟨i, hp, hf, h7⟩
    · omega
    · rw [h7]
      have hpos := hne i hp hf
      have hk := (hin i hp hf (fs[i].st_size - 1) (by omega)).2
      rw [block_size_int] at hk
      exact blocks_of_minimal _ _ _ hpos hk
  · intro i hf hp
    exact hne i hp hf

/-- Witness for `end_block_minimal`: the OpenInkpot layout with a 3-byte
kernel and a rootfs of one block and one byte. -/
theorem end_block_minimal_witness :
    1 ≤ (build_firmware sum_digest (some sample_tm) layout_oi
      [plain_file 3 7, plain_file 1048577 8] output_ok).firmware_end_block ∧
    written_inside layout_oi.partitions [plain_file 3 7, plain_file 1048577 8]
      (build_firmware sum_digest (some sample_tm) layout_oi
        [plain_file 3 7, plain_file 1048577 8] output_ok).firmware_end_block :=
  (end_block_minimal sum_digest (some sample_tm) layout_oi (List.mem_cons_self _ _)
    [plain_file 3 7, plain_file 1048577 8] output_ok (by decide)).1

/-- C7: after a successful build on a catalog layout the output file, first
sized to `layout.size * BLOCK_SIZE` bytes, is the mapped file cut by
`ftruncate` to `end_block * BLOCK_SIZE`: its length is exactly
`end_block * BLOCK_SIZE`, which does not exceed the first size, and each of
its bytes is the byte of the buffer at the same offset. -/
theorem output_length (md5 : List Byte → Fin 16 → Byte) (lt : Option tm) (l : layout_t)
    (hl : l ∈ layouts) (fs : List input_file) (env : output_env)
    (h : (build_firmware md5 lt l fs env).status = some 0) :
    (sized_output l).size = l.size * BLOCK_SIZE ∧
    (build_firmware md5 lt l fs env).out
      = ftruncate (mapped_file (sized_output l) (build_firmware md5 lt l fs env).firmware)
          ((build_firmware md5 lt l fs env).firmware_end_block * BLOCK_SIZE) ∧
    ((build_firmware md5 lt l fs env).out.size : Int)
      = (build_firmware md5 lt l fs env).firmware_end_block * BLOCK_SIZE ∧
    (build_firmware md5 lt l fs env).out.size ≤ (sized_output l).size ∧
    ∀ k : Nat, k < (build_firmware md5 lt l fs env).out.size →
      (build_firmware md5 lt l fs env).out.data k
        = (build_firmware md5 lt l fs env).firmware k := by
  obtain ⟨t, _, _, _, _, ho⟩ := build_firmware_ok md5 lt l fs env h
  obtain ⟨_, _, _, e1, e2⟩ := build_firmware_loop md5 lt l hl fs env h
  obtain ⟨hsize, hdata⟩ := build_firmware_out md5 lt l hl fs env h
  obtain ⟨hs, _⟩ := catalog_ascending l hl
  have hsz : (sized_output l).size = l.size * BLOCK_SIZE := by
    unfold sized_output ftruncate
    rw [hs, block_size_int, size_t_device, block_size_val]
    rfl
  refine ⟨hsz, ?_, ?_, ?_, ?_⟩
  · rw [block_size_int] at ho ⊢
    rw [int32_of_range _ (by omega) (by omega)] at ho
    exact ho
  · rw [block_size_int]; exact hsize
  · rw [hsz, hs, block_size_val]; omega
  · intro k hk
    exact hdata k (by omega)

/-- Witness for `output_length`: the OpenInkpot layout with a 3-byte kernel. -/
theorem output_length_witness :
    ((build_firmware sum_digest (some sample_tm) layout_oi [plain_file 3 7] output_ok).out.size
        : Int)
      = (build_firmware sum_digest (some sample_tm) layout_oi [plain_file 3 7]
          output_ok).firmware_end_block * BLOCK_SIZE :=
  (output_length sum_digest (some sample_tm) layout_oi (List.mem_cons_self _ _)
    [plain_file 3 7] output_ok (by decide)).2.2.1

/-- C8: after a successful build on a catalog layout, every byte of the device
buffer in blocks `1 .. layout.size` that lies in no range
`[partition_i.offset * BLOCK_SIZE, partition_i.offset * BLOCK_SIZE + file_size_i)`
of a partition `i` that received a file is `0xFF`; where the output file
extends that far, its byte there is `0xFF` too. -/
theorem untouched_bytes_erased (md5 : List Byte → Fin 16 → Byte) (lt : Option tm)
    (l : layout_t) (hl : l ∈ layouts) (fs : List input_file) (env : output_env)
    (h : (build_firmware md5 lt l fs env).status = some 0)
    (a : Nat) (h1 : BLOCK_SIZE ≤ a) (h2 : a < l.size * BLOCK_SIZE)
    (hout : ∀ i (hp : i < l.partitions.length) (hf : i < fs.length),
      ¬ (l.partitions[i].offset * BLOCK_SIZE ≤ (a : Int)
          ∧ (a : Int) < l.partitions[i].offset * BLOCK_SIZE + fs[i].st_size)) :
    (build_firmware md5 lt l fs env).firmware a = 255 ∧
    (a < (build_firmware md5 lt l fs env).out.size →
      (build_firmware md5 lt l fs env).out.data a = 255) := by
  obtain ⟨t, _, hw, hfw, he, _⟩ := build_firmware_ok md5 lt l fs env h
  obtain ⟨_, hasc, _, e1, e2⟩ := build_firmware_loop md5 lt l hl fs env h
  obtain ⟨hsize, hdata⟩ := build_firmware_out md5 lt l hl fs env h
  obtain ⟨hs, _⟩ := catalog_ascending l hl
  obtain ⟨_, w2, _⟩ :=
    write_partitions_ok 64 (by omega) l.partitions fs ⟨erased_buffer l, 1, 0⟩ 1 (by omega) hasc
      (by simp) (by simp) hw
  rw [hs, block_size_val] at h2
  rw [block_size_val] at h1
  rw [block_size_int] at hout
  have hmem : (build_firmware md5 lt l fs env).firmware a = 255 := by
    rw [hfw, ← he, write_firmware_header_outside md5 t _ _ e1 (by omega) _ (by omega),
      w2 a hout]
    simp only
    rw [erased_buffer_catalog l hl, if_pos (by omega)]
  refine ⟨hmem, ?_⟩
  intro hlt
  rw [hdata a (by omega), hmem]

/-- Witness for `untouched_bytes_erased`: the OpenInkpot layout with a 3-byte
kernel; the byte after the kernel file. -/
theorem untouched_bytes_erased_witness :
    (build_firmware sum_digest (some sample_tm) layout_oi [plain_file 3 7] output_ok).firmware
        ((1048579 : Nat) : Int) = 255 ∧
    (1048579 < (build_firmware sum_digest (some sample_tm) layout_oi [plain_file 3 7]
        output_ok).out.size →
      (build_firmware sum_digest (some sample_tm) layout_oi [plain_file 3 7]
        output_ok).out.data 1048579 = 255) :=
  untouched_bytes_erased sum_digest (some sample_tm) layout_oi (List.mem_cons_self _ _)
    [plain_file 3 7] output_ok (by decide) 1048579 (by decide) (by decide) (by
      intro i hp hf
      have hi : i = 0 := by simpa using hf
      subst hi
      simp only [layout_oi, v3_oi_partitions, plain_file, List.getElem_cons_zero,
        block_size_int]
      omega)

theorem write_list_inside (mem : Mem) (dst : Int) (l : List Byte) (m : Nat) (hm : m < l.length) :
    write_list mem dst l (dst + (m : Int)) = l.getD m 0 := by
  unfold write_list
  rw [if_pos (by omega)]
  congr 1
  omega

theorem store_le32_inside (mem : Mem) (dst v : Int) (m : Nat) (hm : m < 4) :
    store_le32 mem dst v (dst + (m : Int)) = (v % 4294967296).toNat / 256 ^ m % 256 := by
  unfold store_le32
  rw [write_list_inside _ _ _ m (by simpa using hm)]
  have hcases : m = 0 ∨ m = 1 ∨ m = 2 ∨ m = 3 := by omega
  rcases hcases with rfl | rfl | rfl | rfl <;> simp

theorem write_firmware_header_data_blocks (md5 : List Byte → Fin 16 → Byte) (t : tm) (fw : Mem)
    (E : Int) (h1 : 1 ≤ E) (h2 : E ≤ 65531) (m : Nat) (hm : m < 4) :
    (write_firmware_header md5 (some t) fw E).2 (72 + (m : Int))
      = (E - 1).toNat / 256 ^ m % 256 := by
  rw [write_firmware_header_some]
  simp only
  rw [int32_of_range (E - 1) (by omega) (by omega)]
  rw [md5_buffer_outside _ _ _ _ _ _ (by unfold md5_sums_offset; omega)]
  rw [checksum_loop_outside md5 _ 1 _ _ (by omega) (by omega) (by omega)]
  unfold data_blocks_offset
  rw [store_le32_inside _ _ _ m hm]
  have : ((E - 1) % 4294967296).toNat = (E - 1).toNat := by omega
  rw [this]

theorem build_firmware_no_files (md5 : List Byte → Fin 16 → Byte) (t : tm) (l : layout_t) :
    (build_firmware md5 (some t) l [] output_ok).status = some 0 ∧
    (build_firmware md5 (some t) l [] output_ok).firmware_end_block = 1 ∧
    (build_firmware md5 (some t) l [] output_ok).firmware
      = (write_firmware_header md5 (some t) (erased_buffer l) 1).2 := by
  simp [build_firmware, write_partitions_no_files, output_ok, write_firmware_header_some]

/-- C9: on every catalog layout, with a clock that returns a date and an output
path whose system calls succeed, a build with zero input files returns 0 with
End Block 1; the output file is exactly `BLOCK_SIZE` bytes; header bytes
72..75 (`data_blocks`) are 0; checksum slot 0 (bytes 76..91) is the digest of
header bytes `[0, 76)`; and no other slot is filled: bytes `92 .. BLOCK_SIZE`
of the header block still hold `0xFF`. -/
theorem header_only_build (md5 : List Byte → Fin 16 → Byte) (t : tm) (l : layout_t)
    (hl : l ∈ layouts) :
    (build_firmware md5 (some t) l [] output_ok).status = some 0 ∧
    (build_firmware md5 (some t) l [] output_ok).firmware_end_block = 1 ∧
    (build_firmware md5 (some t) l [] output_ok).out.size = BLOCK_SIZE ∧
    (∀ k : Nat, 72 ≤ k → k < 76 →
      (build_firmware md5 (some t) l [] output_ok).out.data k = 0) ∧
    (∀ j : Fin 16,
      (build_firmware md5 (some t) l [] output_ok).out.data (76 + j.val)
        = md5 (file_bytes (build_firmware md5 (some t) l [] output_ok).out 0 76) j) ∧
    (∀ k : Nat, 92 ≤ k → k < BLOCK_SIZE →
      (build_firmware md5 (some t) l [] output_ok).out.data k = 255) := by
  obtain ⟨hst, hE, hfw⟩ := build_firmware_no_files md5 t l
  obtain ⟨hsize, hdata⟩ := build_firmware_out md5 (some t) l hl [] output_ok hst
  rw [hE] at hsize hdata
  refine ⟨hst, hE, ?_, ?_, ?_, ?_⟩
  · rw [block_size_val]; omega
  · intro k hk1 hk2
    rw [hdata k (by omega), hfw]
    have hk : (k : Int) = 72 + ((k - 72 : Nat) : Int) := by omega
    rw [hk, write_firmware_header_data_blocks md5 t _ 1 (by omega) (by omega) _ (by omega)]
    simp
  · intro j
    have hj := j.isLt
    have hb : file_bytes (build_firmware md5 (some t) l [] output_ok).out 0 76
        = read_bytes (build_firmware md5 (some t) l [] output_ok).firmware 0 76 := by
      have := file_bytes_eq_read_bytes (build_firmware md5 (some t) l [] output_ok).out
        (build_firmware md5 (some t) l [] output_ok).firmware 0 76 (by
          intro k hk
          rw [hdata _ (by omega)]
          congr 1)
      rw [this]
      rfl
    rw [hb, hdata _ (by omega), hfw]
    have ha : (((76 + j.val : Nat)) : Int) = 76 + 16 * ((1 : Int) - 1) + (j.val : Int) := by
      omega
    rw [ha, write_firmware_header_last md5 t _ 1 (by omega) (by omega) j]
    rfl
  · intro k hk1 hk2
    rw [block_size_val] at hk2
    rw [hdata k (by omega), hfw,
      write_firmware_header_outside md5 t _ 1 (by omega) (by omega) _ (by omega),
      erased_buffer_catalog l hl, if_pos (by omega)]

/-- Witness for `header_only_build`: the Hanlin layout. -/
theorem header_only_build_witness :
    (build_firmware sum_digest (some sample_tm) layout_hanlin [] output_ok).out.size
      = BLOCK_SIZE :=
  (header_only_build sum_digest sample_tm layout_hanlin
    (List.mem_cons_of_mem _ (List.mem_cons_self _ _))).2.2.1

theorem catalog_offsets : ∀ l ∈ layouts, ∀ p ∈ l.partitions,
    1 ≤ p.offset ∧ 0 < p.size ∧ p.offset + p.size ≤ (l.size : Int) := by
  decide

theorem catalog_separate : ∀ l ∈ layouts, ∀ i : Fin l.partitions.length,
    ∀ j : Fin l.partitions.length, i ≠ j →
      l.partitions[i].offset + l.partitions[i].size ≤ l.partitions[j].offset ∨
      l.partitions[j].offset + l.partitions[j].size ≤ l.partitions[i].offset := by
  decide

/-- C10: the catalog holds the layouts tagged "oi" and "hanlin"; in each, every
partition has `offset ≥ 1` and `offset + size ≤ layout.size`, and the block
ranges `[offset, offset + size)` of two partitions at distinct positions have
no block in common. -/
theorem catalog_geometry :
    layouts.map (fun l => l.tag) = ["oi", "hanlin"] ∧
    ∀ l ∈ layouts,
      (∀ p ∈ l.partitions, 1 ≤ p.offset ∧ p.offset + p.size ≤ (l.size : Int)) ∧
      ∀ (i j : Nat) (hi : i < l.partitions.length) (hj : j < l.partitions.length), i ≠ j →
        ∀ b : Int, ¬ ((l.partitions[i].offset ≤ b ∧ b < l.partitions[i].offset + l.partitions[i].size)
          ∧ (l.partitions[j].offset ≤ b ∧ b < l.partitions[j].offset + l.partitions[j].size)) := by
  refine ⟨by decide, ?_⟩
  intro l hl
  constructor
  · intro p hp
    have := catalog_offsets l hl p hp
    omega
  · intro i j hi hj hne b
    have := catalog_separate l hl ⟨i, hi⟩ ⟨j, hj⟩ (by simpa using hne)
    simp only [Fin.getElem_fin] at this
    omega

/-! ## Catalog lookup and header fields -/

theorem get_layout_eq (s : String) :
    get_layout s = if s = "oi" then some layout_oi
      else if s = "hanlin" then some layout_hanlin else none := by
  unfold get_layout layouts
  by_cases h1 : s = "oi"
  · subst h1
    rfl
  · by_cases h2 : s = "hanlin"
    · subst h2
      rfl
    · have e1 : (layout_oi.tag == s) = false := by
        rw [beq_eq_false_iff_ne]
        intro h; exact h1 h.symm
      have e2 : (layout_hanlin.tag == s) = false := by
        rw [beq_eq_false_iff_ne]
        intro h; exact h2 h.symm
      simp only [List.find?_cons, e1, e2, List.find?_nil, if_neg h1, if_neg h2]

/-- C11: `get_layout s` is the catalog entry whose tag is exactly `s` when there
is one ("oi" gives the OpenInkpot layout, "hanlin" the original Hanlin layout)
and the not-found result for every other string, among them "OI", the
prefixes "o" and "han", and the empty string; the tags of the catalog are
pairwise distinct, so an entry is found by its own tag only. -/
theorem get_layout_exact :
    (∀ l ∈ layouts, get_layout l.tag = some l) ∧
    (∀ (s : String) (l : layout_t), get_layout s = some l → l ∈ layouts ∧ l.tag = s) ∧
    (∀ s : String, (∀ l ∈ layouts, l.tag ≠ s) → get_layout s = none) ∧
    get_layout "oi" = some layout_oi ∧ get_layout "hanlin" = some layout_hanlin ∧
    get_layout "OI" = none ∧ get_layout "o" = none ∧ get_layout "han" = none ∧
    get_layout "" = none ∧
    (layouts.map (fun l => l.tag)).Nodup := by
  refine ⟨?_, ?_, ?_, rfl, rfl, ?_, ?_, ?_, ?_, by decide⟩
  · intro l hl
    simp only [layouts, List.mem_cons, List.mem_singleton, List.not_mem_nil, or_false] at hl
    rcases hl with rfl | rfl <;> rfl
  · intro s l h
    rw [get_layout_eq] at h
    by_cases h1 : s = "oi"
    · rw [if_pos h1] at h
      cases h
      exact ⟨List.mem_cons_self _ _, h1.symm⟩
    · rw [if_neg h1] at h
      by_cases h2 : s = "hanlin"
      · rw [if_pos h2] at h
        cases h
        exact ⟨List.mem_cons_of_mem _ (List.mem_cons_self _ _), h2.symm⟩
      · rw [if_neg h2] at h
        cases h
  · intro s h
    rw [get_layout_eq]
    have h1 : s ≠ "oi" := fun e => h layout_oi (List.mem_cons_self _ _) e.symm
    have h2 : s ≠ "hanlin" :=
      fun e => h layout_hanlin (List.mem_cons_of_mem _ (List.mem_cons_self _ _)) e.symm
    rw [if_neg h1, if_neg h2]
  · rw [get_layout_eq, if_neg (by decide), if_neg (by decide)]
  · rw [get_layout_eq, if_neg (by decide), if_neg (by decide)]
  · rw [get_layout_eq, if_neg (by decide), if_neg (by decide)]
  · rw [get_layout_eq, if_neg (by decide), if_neg (by decide)]

theorem snprintf_terminator (mem : Mem) (dst : Int) (size : Nat) (text : List Byte)
    (h : text.length < size) : snprintf mem dst size text (dst + (text.length : Int)) = 0 := by
  unfold snprintf
  have ht : List.take (size - 1) text = text := List.take_of_length_le (by omega)
  rw [ht, write_list_inside _ _ _ text.length (by simp)]
  simp [List.getD]

theorem vendor_text_length : vendor_text.length = 40 := by decide

/-- C12: for every buffer, every date the clock returns and every End Block `E`
with `1 ≤ E ≤ 65531`, after `write_firmware_header` header bytes 72..75 are the
little-endian 32-bit encoding of `E - 1` (byte `72 + m` is
`(E - 1) / 256 ^ m mod 256`, byte 72 the least significant), although the
`snprintf` of the 40-character vendor string stores its terminating NUL at
byte 72 first. -/
theorem data_blocks_little_endian (md5 : List Byte → Fin 16 → Byte) (t : tm) (fw : Mem)
    (E : Int) (h1 : 1 ≤ E) (h2 : E ≤ 65531) :
    (∀ m : Nat, m < 4 →
      (write_firmware_header md5 (some t) fw E).2 (72 + (m : Int))
        = (E - 1).toNat / 256 ^ m % 256) ∧
    (write_firmware_header md5 (some t) fw E).2 72
        + 256 * (write_firmware_header md5 (some t) fw E).2 73
        + 65536 * (write_firmware_header md5 (some t) fw E).2 74
        + 16777216 * (write_firmware_header md5 (some t) fw E).2 75 = (E - 1).toNat ∧
    ∀ mem : Mem, snprintf mem vendor_offset (40 + 1) vendor_text 72 = 0 := by
  have hb := write_firmware_header_data_blocks md5 t fw E h1 h2
  refine ⟨hb, ?_, ?_⟩
  · have b0 := hb 0 (by omega)
    have b1 := hb 1 (by omega)
    have b2 := hb 2 (by omega)
    have b3 := hb 3 (by omega)
    simp only [Nat.cast_zero, add_zero, Nat.cast_one, Nat.cast_ofNat, pow_zero, Nat.div_one,
      pow_one] at b0 b1 b2 b3
    have e1 : (72 : Int) + 1 = 73 := by norm_num
    have e2 : (72 : Int) + 2 = 74 := by norm_num
    have e3 : (72 : Int) + 3 = 75 := by norm_num
    rw [e1] at b1
    rw [e2] at b2
    rw [e3] at b3
    rw [b0, b1, b2, b3]
    have hn : (E - 1).toNat < 65531 := by omega
    generalize (E - 1).toNat = n at hn ⊢
    have key : (n % 256 + 256 * (n / 256 % 256) + 65536 * (n / 65536 % 256)
        + 16777216 * (n / 16777216 % 256) : Nat) = n := by omega
    exact key
  · intro mem
    have := snprintf_terminator mem vendor_offset (40 + 1) vendor_text (by rw [vendor_text_length]; omega)
    rw [vendor_text_length] at this
    exact this

/-- Witness for `data_blocks_little_endian`: End Block 300, `data_blocks = 299`
stored as bytes 43, 1, 0, 0. -/
theorem data_blocks_little_endian_witness :
    (write_firmware_header sum_digest (some sample_tm) (fun _ => 255) 300).2 72
        + 256 * (write_firmware_header sum_digest (some sample_tm) (fun _ => 255) 300).2 73
        + 65536 * (write_firmware_header sum_digest (some sample_tm) (fun _ => 255) 300).2 74
        + 16777216 * (write_firmware_header sum_digest (some sample_tm) (fun _ => 255) 300).2 75
      = ((300 : Int) - 1).toNat :=
  (data_blocks_little_endian sum_digest sample_tm (fun _ => 255) 300 (by decide) (by decide)).2.1

/-- C13: the packed header record has exactly `BLOCK_SIZE` bytes,
`32 + 40 + 4 + 16 * 65531 + 4 = 1048576`, with
`(BLOCK_SIZE - 76) / 16 = 65531` checksum slots and
`(BLOCK_SIZE - 76) mod 16 = 4` leftover bytes, and checksum slot `j` starts at
byte offset `76 + 16 * j`, the first right after `data_blocks` and the padding
right after the last. -/
theorem header_record_size :
    sizeof_block0_t = BLOCK_SIZE ∧ BLOCK_SIZE = 1048576 ∧
    32 + 40 + 4 + 16 * ((BLOCK_SIZE - 76) / 16) + (BLOCK_SIZE - 76) % 16 = 1048576 ∧
    md5_sums_count = 65531 ∧ padding_len = 4 ∧
    (∀ j : Int, md5_sums_offset j = 76 + 16 * j) ∧
    md5_sums_offset 0 = data_blocks_offset + 4 ∧
    md5_sums_offset md5_sums_count + padding_len = BLOCK_SIZE := by
  refine ⟨by decide, by decide, by decide, by decide, by decide, fun _ => rfl, by decide,
    by decide⟩

/-! ## Header padding -/

/-- Bytes of the mapped memory that a successful build on a catalog layout
leaves erased: those past the used checksum slots and outside every range a
partition write stored to. -/
theorem build_firmware_erased (md5 : List Byte → Fin 16 → Byte) (lt : Option tm)
    (l : layout_t) (hl : l ∈ layouts) (fs : List input_file) (env : output_env)
    (h : (build_firmware md5 lt l fs env).status = some 0) (a : Int)
    (h1 : 76 + 16 * (build_firmware md5 lt l fs env).firmware_end_block ≤ a)
    (h2 : a < 67108864)
    (hout : ∀ i (hp : i < l.partitions.length) (hf : i < fs.length),
      ¬ (l.partitions[i].offset * 1048576 ≤ a
          ∧ a < l.partitions[i].offset * 1048576 + fs[i].st_size)) :
    (build_firmware md5 lt l fs env).firmware a = 255 := by
  obtain ⟨t, _, hw, hfw, he, _⟩ := build_firmware_ok md5 lt l fs env h
  obtain ⟨_, hasc, _, e1, e2⟩ := build_firmware_loop md5 lt l hl fs env h
  obtain ⟨_, w2, _⟩ :=
    write_partitions_ok 64 (by omega) l.partitions fs ⟨erased_buffer l, 1, 0⟩ 1 (by omega) hasc
      (by simp) (by simp) hw
  rw [hfw, ← he, write_firmware_header_outside md5 t _ _ e1 (by omega) _ (by omega),
    w2 a hout]
  simp only
  rw [erased_buffer_catalog l hl, if_pos (by omega)]

/-- C14 (amended): after a successful build on a catalog layout the leftover
bytes of the Header Block that follow the checksum slot array, offsets
1048572..1048575 of the output file, hold the erase sentinel `0xFF`; the
header builder never writes them. -/
theorem padding_bytes_erased (md5 : List Byte → Fin 16 → Byte) (lt : Option tm)
    (l : layout_t) (hl : l ∈ layouts) (fs : List input_file) (env : output_env)
    (h : (build_firmware md5 lt l fs env).status = some 0) (k : Nat)
    (h1 : md5_sums_offset md5_sums_count ≤ k) (h2 : k < BLOCK_SIZE) :
    1048572 ≤ k ∧ k < (build_firmware md5 lt l fs env).out.size ∧
    (build_firmware md5 lt l fs env).out.data k = 255 := by
  obtain ⟨_, hasc, he, e1, e2⟩ := build_firmware_loop md5 lt l hl fs env h
  obtain ⟨hw, _⟩ := build_firmware_loop md5 lt l hl fs env h
  obtain ⟨hsize, hdata⟩ := build_firmware_out md5 lt l hl fs env h
  obtain ⟨w1, _⟩ :=
    write_partitions_ok 64 (by omega) l.partitions fs ⟨erased_buffer l, 1, 0⟩ 1 (by omega) hasc
      (by simp) (by simp) hw
  have hk1 : (1048572 : Int) ≤ k := by
    have : md5_sums_offset md5_sums_count = 1048572 := by decide
    omega
  rw [block_size_val] at h2
  refine ⟨by omega, by omega, ?_⟩
  rw [hdata k (by omega)]
  apply build_firmware_erased md5 lt l hl fs env h
  · omega
  · omega
  · intro i hp hf
    have := w1 i hp hf
    omega

/-- Witness for `padding_bytes_erased`: the Hanlin layout with a 3-byte kernel,
the last byte of the header block. -/
theorem padding_bytes_erased_witness :
    1048572 ≤ 1048575 ∧
    1048575 < (build_firmware sum_digest (some sample_tm) layout_hanlin [plain_file 3 7]
      output_ok).out.size ∧
    (build_firmware sum_digest (some sample_tm) layout_hanlin [plain_file 3 7]
      output_ok).out.data 1048575 = 255 :=
  padding_bytes_erased sum_digest (some sample_tm) layout_hanlin
    (List.mem_cons_of_mem _ (List.mem_cons_self _ _)) [plain_file 3 7] output_ok (by decide)
    1048575 (by decide) (by decide)

/-- C14 (as stated) fails: a build with no input files on the OpenInkpot
layout returns 0 and the four bytes after the checksum slot array are `0xFF`,
not zero. -/
theorem padding_bytes_not_zero :
    (build_firmware sum_digest (some sample_tm) layout_oi [] output_ok).status = some 0 ∧
    (build_firmware sum_digest (some sample_tm) layout_oi [] output_ok).out.data 1048572 = 255 ∧
    (build_firmware sum_digest (some sample_tm) layout_oi [] output_ok).out.data 1048573 = 255 ∧
    (build_firmware sum_digest (some sample_tm) layout_oi [] output_ok).out.data 1048574 = 255 ∧
    (build_firmware sum_digest (some sample_tm) layout_oi [] output_ok).out.data 1048575 = 255 := by
  decide

/-! ## Failure of a partition write -/

theorem ascending_weaken (lo lo2 hi : Int) (ps : List partition_t) (hlo : lo2 ≤ lo)
    (h : ascending lo hi ps = true) : ascending lo2 hi ps = true := by
  cases ps with
  | nil => rfl
  | cons p ps =>
    obtain ⟨h1, h2, h3, h4⟩ := ascending_cons lo hi p ps h
    simp only [ascending, Bool.and_eq_true, decide_eq_true_eq]
    exact ⟨⟨⟨by omega, h2⟩, h3⟩, h4⟩

theorem sized_output_catalog (l : layout_t) (hl : l ∈ layouts) :
    (sized_output l).size = l.size * BLOCK_SIZE ∧ (sized_output l).size = 67108864 := by
  obtain ⟨hs, _⟩ := catalog_ascending l hl
  unfold sized_output ftruncate
  rw [hs, block_size_int, size_t_device, block_size_val]
  exact ⟨rfl, rfl⟩

theorem decimal_small (fuel n : Nat) (hf : 0 < fuel) (hn : n < 10) :
    decimal fuel n = [48 + n] := by
  obtain ⟨f, rfl⟩ : ∃ f, fuel = f + 1 := ⟨fuel - 1, by omega⟩
  rw [decimal, if_pos hn]

theorem decimal_step (fuel n : Nat) (hf : 0 < fuel) (hn : 10 ≤ n) :
    decimal fuel n = decimal (fuel - 1) (n / 10) ++ [48 + n % 10] := by
  obtain ⟨f, rfl⟩ : ∃ f, fuel = f + 1 := ⟨fuel - 1, by omega⟩
  rw [decimal, if_neg (by omega)]
  rfl

theorem decimal_two (n : Nat) (h1 : 10 ≤ n) (h2 : n < 100) (fuel : Nat) (hf : 1 < fuel) :
    decimal fuel n = [48 + n / 10, 48 + n % 10] := by
  rw [decimal_step fuel n (by omega) h1, decimal_small _ _ (by omega) (by omega)]
  rfl

theorem decimal_three (n : Nat) (h1 : 100 ≤ n) (h2 : n < 1000) (fuel : Nat) (hf : 2 < fuel) :
    decimal fuel n = [48 + n / 100, 48 + n / 10 % 10, 48 + n % 10] := by
  rw [decimal_step fuel n (by omega) (by omega),
    decimal_two (n / 10) (by omega) (by omega) _ (by omega)]
  have : n / 10 / 10 = n / 100 := by omega
  rw [this]
  rfl

theorem decimal_four (n : Nat) (h1 : 1000 ≤ n) (h2 : n < 10000) (fuel : Nat) (hf : 3 < fuel) :
    decimal fuel n = [48 + n / 1000, 48 + n / 100 % 10, 48 + n / 10 % 10, 48 + n % 10] := by
  rw [decimal_step fuel n (by omega) (by omega),
    decimal_three (n / 10) (by omega) (by omega) _ (by omega)]
  have e1 : n / 10 / 100 = n / 1000 := by omega
  have e2 : n / 10 / 10 = n / 100 := by omega
  rw [e1, e2]
  rfl

/-- The conversion `%04d` of a year in `0 .. 9999`: four digits. -/
theorem fmt_0d_year (y : Nat) (hy : y ≤ 9999) :
    fmt_0d 4 (y : Int) = [48 + y / 1000, 48 + y / 100 % 10, 48 + y / 10 % 10, 48 + y % 10] := by
  unfold fmt_0d
  simp only [Int.natAbs_ofNat]
  rw [if_neg (by omega)]
  by_cases c1 : y < 10
  · rw [decimal_small _ _ (by omega) c1]
    have a1 : y / 1000 = 0 := by omega
    have a2 : y / 100 % 10 = 0 := by omega
    have a3 : y / 10 % 10 = 0 := by omega
    have a4 : y % 10 = y := by omega
    rw [a1, a2, a3, a4]
    rfl
  · by_cases c2 : y < 100
    · rw [decimal_two y (by omega) c2 _ (by omega)]
      have a1 : y / 1000 = 0 := by omega
      have a2 : y / 100 % 10 = 0 := by omega
      have a3 : y / 10 % 10 = y / 10 := by omega
      rw [a1, a2, a3]
      rfl
    · by_cases c3 : y < 1000
      · rw [decimal_three y (by omega) c3 _ (by omega)]
        have a1 : y / 1000 = 0 := by omega
        have a2 : y / 100 % 10 = y / 100 := by omega
        rw [a1, a2]
        rfl
      · rw [decimal_four y (by omega) (by omega) _ (by omega)]
        rfl

/-- The conversion `%02d` of a number in `0 .. 99`: two digits. -/
theorem fmt_0d_two (n : Nat) (hn : n ≤ 99) : fmt_0d 2 (n : Int) = [48 + n / 10, 48 + n % 10] := by
  unfold fmt_0d
  simp only [Int.natAbs_ofNat]
  rw [if_neg (by omega)]
  by_cases c1 : n < 10
  · rw [decimal_small _ _ (by omega) c1]
    have a1 : n / 10 = 0 := by omega
    have a2 : n % 10 = n := by omega
    rw [a1, a2]
    rfl
  · rw [decimal_two n (by omega) (by omega) _ (by omega)]
    rfl

theorem version_text_date (y m d : Nat) (hy : y ≤ 9999) (hm1 : 1 ≤ m) (hm2 : m ≤ 12)
    (hd2 : d ≤ 31) :
    version_text ⟨(y : Int) - 1900, (m : Int) - 1, (d : Int)⟩
      = [74, 75, 86, 51, 58, 86, 51, 46, 48, 49,
          48 + y / 1000, 48 + y / 100 % 10, 48 + y / 10 % 10, 48 + y % 10,
          48 + m / 10, 48 + m % 10, 48 + d / 10, 48 + d % 10] := by
  unfold version_text
  simp only
  have e1 : int32 ((y : Int) - 1900 + 1900) = (y : Int) := by
    rw [int32_of_range _ (by omega) (by omega)]; omega
  have e2 : int32 ((m : Int) - 1 + 1) = (m : Int) := by
    rw [int32_of_range _ (by omega) (by omega)]; omega
  rw [e1, e2, fmt_0d_year y hy, fmt_0d_two m (by omega), fmt_0d_two d (by omega)]
  rfl

/-- A field of `n` bytes cleared by `memset` and then written by `snprintf`
with size `n + 1`: its bytes are the text followed by zeros. -/
theorem field_bytes (mem : Mem) (dst : Int) (n : Nat) (text : List Byte)
    (hlen : text.length ≤ n) (k : Nat) (hk : k < n) :
    snprintf (memset mem dst 0 n) dst (n + 1) text (dst + (k : Int)) = text.getD k 0 := by
  unfold snprintf
  have ht : List.take (n + 1 - 1) text = text := List.take_of_length_le (by omega)
  rw [ht]
  by_cases c : k < text.length + 1
  · rw [write_list_inside _ _ _ k (by simpa using c)]
    by_cases c2 : k < text.length
    · simp [List.getD, List.getElem?_append_left c2]
    · have hk2 : k = text.length := by omega
      subst hk2
      simp [List.getD]
  · rw [write_list_outside _ _ _ _ (by simp; omega), memset_inside _ _ _ _ _ (by omega) (by omega)]
    simp [List.getD, List.getElem?_eq_none (by omega : text.length ≤ k)]

theorem read_bytes_of_text (mem : Mem) (p : Int) (n : Nat) (text : List Byte)
    (h : ∀ k : Nat, k < n → mem (p + (k : Int)) = text.getD k 0) :
    read_bytes mem p n = (List.range n).map (fun k => text.getD k 0) := by
  unfold read_bytes
  apply List.map_congr_left
  intro k hk
  exact h k (List.mem_range.mp hk)

theorem vendor_text_val : vendor_text
    = [78, 97, 110, 107, 97, 105, 32, 85, 110, 105, 118, 101, 114, 115, 105, 116, 121, 32,
       97, 110, 100, 32, 84, 105, 97, 110, 74, 105, 110, 32, 74, 105, 110, 107, 101, 32,
       67, 111, 114, 112] := by
  decide

/-- The first 72 header bytes after `write_firmware_header`: the version text
and the vendor text, each followed by zeros up to the end of its field. -/
theorem write_firmware_header_texts (md5 : List Byte → Fin 16 → Byte) (t : tm) (fw : Mem)
    (E : Int) (h1 : 1 ≤ E) (h2 : E ≤ 65531) (hv : (version_text t).length ≤ 32) :
    (∀ k : Nat, k < 32 →
      (write_firmware_header md5 (some t) fw E).2 (0 + (k : Int)) = (version_text t).getD k 0) ∧
    (∀ k : Nat, k < 40 →
      (write_firmware_header md5 (some t) fw E).2 (32 + (k : Int)) = vendor_text.getD k 0) := by
  rw [write_firmware_header_some]
  simp only
  rw [int32_of_range (E - 1) (by omega) (by omega)]
  unfold version_offset vendor_offset data_blocks_offset
  constructor
  · intro k hk
    rw [md5_buffer_outside _ _ _ _ _ _ (by unfold md5_sums_offset; omega),
      checksum_loop_outside md5 _ 1 _ _ (by omega) (by omega) (by omega),
      store_le32_outside _ _ _ _ (by omega),
      snprintf_outside _ _ _ _ _ (by omega) (by omega),
      memset_outside _ _ _ _ _ (by omega)]
    exact field_bytes fw 0 32 (version_text t) hv k hk
  · intro k hk
    rw [md5_buffer_outside _ _ _ _ _ _ (by unfold md5_sums_offset; omega),
      checksum_loop_outside md5 _ 1 _ _ (by omega) (by omega) (by omega),
      store_le32_outside _ _ _ _ (by omega)]
    exact field_bytes _ 32 40 vendor_text (by rw [vendor_text_length]) k hk

/-- C16: for every buffer, every End Block `E` with `1 ≤ E ≤ 65531` and every
local date (year `y`, month `m`, day `d`) with `0 ≤ y ≤ 9999`, `1 ≤ m ≤ 12`,
`1 ≤ d ≤ 31`, after `write_firmware_header` header bytes 0..31 are the ASCII
string "JKV3:V3.01" followed by `y` as 4 zero-padded decimal digits, `m` as 2
and `d` as 2 (18 characters) and then 14 zero bytes, and bytes 32..71 are the
40-character literal "Nankai University and TianJin Jinke Corp". -/
theorem version_and_vendor_bytes (md5 : List Byte → Fin 16 → Byte) (fw : Mem) (E : Int)
    (h1 : 1 ≤ E) (h2 : E ≤ 65531) (y m d : Nat) (hy : y ≤ 9999) (hm1 : 1 ≤ m) (hm2 : m ≤ 12)
    (hd1 : 1 ≤ d) (hd2 : d ≤ 31) :
    read_bytes
        (write_firmware_header md5 (some ⟨(y : Int) - 1900, (m : Int) - 1, (d : Int)⟩) fw E).2
        0 32
      = ascii "JKV3:V3.01"
        ++ [48 + y / 1000, 48 + y / 100 % 10, 48 + y / 10 % 10, 48 + y % 10]
        ++ [48 + m / 10, 48 + m % 10] ++ [48 + d / 10, 48 + d % 10]
        ++ List.replicate 14 0 ∧
    read_bytes
        (write_firmware_header md5 (some ⟨(y : Int) - 1900, (m : Int) - 1, (d : Int)⟩) fw E).2
        32 40
      = ascii "Nankai University and TianJin Jinke Corp" := by
  have hd := hd1
  have htext := version_text_date y m d hy hm1 hm2 hd2
  obtain ⟨hver, hven⟩ := write_firmware_header_texts md5
    ⟨(y : Int) - 1900, (m : Int) - 1, (d : Int)⟩ fw E h1 h2 (by rw [htext]; simp)
  constructor
  · rw [read_bytes_of_text _ 0 32 _ hver, htext]
    rfl
  · rw [read_bytes_of_text _ 32 40 _ hven, vendor_text_val]
    rfl

/-- Witness for `version_and_vendor_bytes`: 15 January 2009, End Block 2. -/
theorem version_and_vendor_bytes_witness :
    read_bytes
        (write_firmware_header sum_digest
          (some ⟨((2009 : Nat) : Int) - 1900, ((1 : Nat) : Int) - 1, ((15 : Nat) : Int)⟩)
          (fun _ => 255) 2).2 0 32
      = ascii "JKV3:V3.01"
        ++ [48 + 2009 / 1000, 48 + 2009 / 100 % 10, 48 + 2009 / 10 % 10, 48 + 2009 % 10]
        ++ [48 + 1 / 10, 48 + 1 % 10] ++ [48 + 15 / 10, 48 + 15 % 10]
        ++ List.replicate 14 0 ∧
    read_bytes
        (write_firmware_header sum_digest
          (some ⟨((2009 : Nat) : Int) - 1900, ((1 : Nat) : Int) - 1, ((15 : Nat) : Int)⟩)
          (fun _ => 255) 2).2 32 40
      = ascii "Nankai University and TianJin Jinke Corp" :=
  version_and_vendor_bytes sum_digest (fun _ => 255) 2 (by decide) (by decide) 2009 1 15
    (by decide) (by decide) (by decide) (by decide) (by decide)

/-! ## Input descriptors and End Block bounds -/

/-- C17 fails on the code. For every partition, state and input: a call that
returns 0 leaves the number of open input descriptors as it found it, and so
does a call whose `open` fails; but when `open` succeeds and `fstat` or the
size check fails, or the file is mapped and `munmap` fails, the call returns 1
with one more descriptor open than before, `close(f)` not being reached. (When
`mmap` fails the call does not return at all.) On the kernel partition a file
of `BLOCK_SIZE + 1` bytes is rejected with the descriptor left open, while a
file of `BLOCK_SIZE` bytes is copied and closed. -/
theorem input_left_open_on_failure :
    (∀ (p : partition_t) (s : state) (f : input_file),
      ((put_file_to_image p s f).1 = some 0 →
        (put_file_to_image p s f).2.open_inputs = s.open_inputs) ∧
      (f.open_ok = false →
        (put_file_to_image p s f).1 = some 1 ∧
        (put_file_to_image p s f).2.open_inputs = s.open_inputs) ∧
      (f.open_ok = true →
        (f.fstat_ok = false ∨ (f.st_size : Int) > int32 (p.size * BLOCK_SIZE)) →
        (put_file_to_image p s f).1 = some 1 ∧
        (put_file_to_image p s f).2.open_inputs = s.open_inputs + 1) ∧
      (f.open_ok = true → f.fstat_ok = true →
        (f.st_size : Int) ≤ int32 (p.size * BLOCK_SIZE) → mmap_failed f = false →
        f.munmap_ok = false →
        (put_file_to_image p s f).1 = some 1 ∧
        (put_file_to_image p s f).2.open_inputs = s.open_inputs + 1) ∧
      (f.open_ok = true → f.fstat_ok = true →
        (f.st_size : Int) ≤ int32 (p.size * BLOCK_SIZE) → mmap_failed f = true →
        (put_file_to_image p s f).1 = none)) ∧
    (put_file_to_image ⟨"kernel", "zImage", 1, 1⟩ ⟨fun _ => 255, 1, 0⟩
      (plain_file 1048577 0)).1 = some 1 ∧
    (put_file_to_image ⟨"kernel", "zImage", 1, 1⟩ ⟨fun _ => 255, 1, 0⟩
      (plain_file 1048577 0)).2.open_inputs = 1 ∧
    (put_file_to_image ⟨"kernel", "zImage", 1, 1⟩ ⟨fun _ => 255, 1, 0⟩
      (plain_file 1048576 0)).1 = some 0 ∧
    (put_file_to_image ⟨"kernel", "zImage", 1, 1⟩ ⟨fun _ => 255, 1, 0⟩
      (plain_file 1048576 0)).2.open_inputs = 0 := by
  refine ⟨?_, by decide, by decide, by decide, by decide⟩
  intro p s f
  refine ⟨?_, ?_, ?_, ?_, ?_⟩
  · intro h
    obtain ⟨_, _, hst⟩ := put_file_to_image_ok p s _ h
    rw [hst]
    simp
  · intro h
    simp [put_file_to_image, h]
  · intro h hfail
    unfold put_file_to_image
    by_cases hsz : (f.st_size : Int) > int32 (p.size * BLOCK_SIZE)
    · cases hf : f.fstat_ok <;> simp [h, hsz]
    · cases hf : f.fstat_ok
      · simp [h]
      · rw [hf] at hfail
        simp [hsz] at hfail
  · intro h1 h2 h3 h4 h5
    have : ¬ ((f.st_size : Int) > int32 (p.size * BLOCK_SIZE)) := by omega
    simp [put_file_to_image, h1, h2, h4, h5, this]
  · intro h1 h2 h3 h4
    have : ¬ ((f.st_size : Int) > int32 (p.size * BLOCK_SIZE)) := by omega
    simp [put_file_to_image, h1, h2, h4, this]

theorem put_file_to_image_fail_end (p : partition_t) (s : state) (f : input_file)
    (h : (put_file_to_image p s f).1 ≠ some 0) :
    (put_file_to_image p s f).2.firmware_end_block = s.firmware_end_block := by
  unfold put_file_to_image at h ⊢
  by_cases hsz : (f.st_size : Int) > int32 (p.size * BLOCK_SIZE)
  · cases ho : f.open_ok <;> cases hf : f.fstat_ok <;> simp [ho, hf, hsz]
  · cases ho : f.open_ok <;> cases hf : f.fstat_ok <;> cases hm : mmap_failed f <;>
      cases hu : f.munmap_ok <;> cases hc : f.close_ok <;>
      simp [ho, hf, hm, hu, hc, hsz] at h ⊢

/-- The End Block stays between 1 and the end of the last partition after
every step of the partition loop, whether the step succeeds or not. -/
theorem write_partitions_end_block (hi : Int) (hhi : hi ≤ 2047) :
    ∀ (ps : List partition_t) (fs : List input_file) (s : state) (lo : Int),
      0 ≤ lo → ascending lo hi ps = true →
      1 ≤ s.firmware_end_block → s.firmware_end_block ≤ hi →
      1 ≤ (write_partitions ps fs s).2.firmware_end_block ∧
      (write_partitions ps fs s).2.firmware_end_block ≤ hi := by
  intro ps
  induction ps with
  | nil =>
    intro fs s lo _ _ he1 he2
    simp [write_partitions, he1, he2]
  | cons p ps ih =>
    intro fs s lo hlo hasc he1 he2
    cases fs with
    | nil =>
      rw [write_partitions_no_files]
      exact ⟨he1, he2⟩
    | cons f fs =>
      obtain ⟨hpo, hps, hpe, hrest⟩ := ascending_cons lo hi p ps hasc
      rw [write_partitions]
      by_cases hq : (put_file_to_image p s f).1 = some 0
      · simp only [hq, ne_eq, not_true_eq_false, if_false]
        obtain ⟨hsz, _, hend⟩ :=
          put_file_to_image_fit p s f (by omega) hps (by omega) he1 (by omega) hq
        rw [block_size_int] at hsz
        have hbl := blocks_of_le_int f.st_size p.size hsz
        apply ih fs _ (p.offset + p.size) (by omega) hrest
        · rw [hend, max_eq]; split_ifs <;> omega
        · rw [hend, max_eq]; split_ifs <;> omega
      · simp only [hq, ne_eq, not_false_eq_true, if_true]
        rw [put_file_to_image_fail_end p s f hq]
        exact ⟨he1, he2⟩

theorem ascending_take (hi : Int) :
    ∀ (ps : List partition_t) (lo : Int) (j : Nat),
      ascending lo hi ps = true → ascending lo hi (ps.take j) = true := by
  intro ps
  induction ps with
  | nil => intro lo j h; simpa using h
  | cons p ps ih =>
    intro lo j h
    cases j with
    | zero => rfl
    | succ j =>
      obtain ⟨h1, h2, h3, h4⟩ := ascending_cons lo hi p ps h
      simp only [List.take_succ_cons, ascending, Bool.and_eq_true, decide_eq_true_eq]
      exact ⟨⟨⟨h1, h2⟩, h3⟩, ih (p.offset + p.size) j h4⟩

/-! ## Frame of the header builder and int products -/

theorem build_firmware_end_block_cases (md5 : List Byte → Fin 16 → Byte) (lt : Option tm)
    (l : layout_t) (fs : List input_file) (env : output_env) :
    (build_firmware md5 lt l fs env).firmware_end_block = 1 ∨
    (build_firmware md5 lt l fs env).firmware_end_block
      = (write_partitions l.partitions fs ⟨erased_buffer l, 1, 0⟩).2.firmware_end_block := by
  obtain ⟨o, ft, mm, mu, fe, cl⟩ := env
  unfold build_firmware
  by_cases hw : (write_partitions l.partitions fs ⟨erased_buffer l, 1, 0⟩).1 = some 0
  · cases o <;> cases ft <;> cases mm <;> cases mu <;> cases fe <;> cases cl <;>
      cases lt <;> simp [hw, write_firmware_header_none, write_firmware_header_some]
  · cases o <;> cases ft <;> cases mm <;> simp [hw]

/-- C18: on a catalog layout, for every list of input files, the End Block
after the loop has handled any number `j` of partitions is between 1 and
`layout.size` (64); hence the last used slot index `end_block - 1` is below
the 65531 slots, the input range `[0, 76 + 16 * (end_block - 1))` of the header
digest and its output slot lie inside block 0, every digested block
`1 ≤ i < end_block` lies inside the buffer, the `int` product
`end_block * BLOCK_SIZE` is exact and does not exceed the length the output
was first given; and the End Block that `build_firmware` leaves, whatever its
status, is within the same bounds. -/
theorem end_block_within_device (l : layout_t) (hl : l ∈ layouts) (fs : List input_file)
    (j : Nat) :
    (1 ≤ end_block_after l fs j ∧ end_block_after l fs j ≤ l.size ∧ l.size = 64) ∧
    end_block_after l fs j - 1 < md5_sums_count ∧
    (0 ≤ first_block_size (end_block_after l fs j) ∧
      first_block_size (end_block_after l fs j) = md5_sums_offset (end_block_after l fs j - 1) ∧
      md5_sums_offset (end_block_after l fs j - 1) + 16 ≤ BLOCK_SIZE) ∧
    (∀ i : Int, 1 ≤ i → i < end_block_after l fs j →
      0 ≤ i * BLOCK_SIZE ∧ (i + 1) * BLOCK_SIZE ≤ l.size * BLOCK_SIZE) ∧
    (int32 (end_block_after l fs j * BLOCK_SIZE) = end_block_after l fs j * BLOCK_SIZE ∧
      end_block_after l fs j * BLOCK_SIZE ≤ (sized_output l).size) ∧
    ∀ (md5 : List Byte → Fin 16 → Byte) (lt : Option tm) (env : output_env),
      1 ≤ (build_firmware md5 lt l fs env).firmware_end_block ∧
      (build_firmware md5 lt l fs env).firmware_end_block ≤ l.size := by
  obtain ⟨hs, hasc⟩ := catalog_ascending l hl
  have hbound : ∀ k : Nat, 1 ≤ end_block_after l fs k ∧ end_block_after l fs k ≤ 64 := by
    intro k
    unfold end_block_after
    exact write_partitions_end_block 64 (by omega) (l.partitions.take k) (fs.take k)
      ⟨erased_buffer l, 1, 0⟩ 1 (by omega) (ascending_take 64 l.partitions 1 k hasc)
      (by simp) (by simp)
  obtain ⟨e1, e2⟩ := hbound j
  have hcount : (md5_sums_count : Int) = 65531 := by decide
  have hfb := first_block_size_eq (end_block_after l fs j) e1 (by omega)
  have hso := (sized_output_catalog l hl).2
  refine ⟨⟨e1, by rw [hs]; exact_mod_cast e2, hs⟩, by omega, ⟨?_, ?_, ?_⟩, ?_, ⟨?_, ?_⟩, ?_⟩
  · rw [hfb]; omega
  · rw [hfb]; rfl
  · unfold md5_sums_offset; rw [block_size_int]; omega
  · intro i hi1 hi2
    rw [hs, block_size_int]
    constructor
    · omega
    · push_cast; omega
  · rw [block_size_int]
    exact int32_of_range _ (by omega) (by omega)
  · rw [hso, block_size_int]; push_cast; omega
  · intro md5 lt env
    have hfull : (write_partitions l.partitions fs ⟨erased_buffer l, 1, 0⟩).2.firmware_end_block
        = end_block_after l fs (Nat.max l.partitions.length fs.length) := by
      unfold end_block_after
      rw [List.take_of_length_le (Nat.le_max_left _ _),
        List.take_of_length_le (Nat.le_max_right _ _)]
    obtain ⟨f1, f2⟩ := hbound (Nat.max l.partitions.length fs.length)
    rw [hs]
    rcases build_firmware_end_block_cases md5 lt l fs env with h | h
    · rw [h]; constructor <;> norm_num
    · rw [h, hfull]
      exact ⟨f1, by exact_mod_cast f2⟩

/-- Witness for `end_block_within_device`: the Hanlin layout, three files, after
two partitions. -/
theorem end_block_within_device_witness :
    1 ≤ end_block_after layout_hanlin [plain_file 3 7, plain_file 2097153 8, plain_file 5 9] 2 ∧
    end_block_after layout_hanlin [plain_file 3 7, plain_file 2097153 8, plain_file 5 9] 2
      ≤ layout_hanlin.size ∧ layout_hanlin.size = 64 :=
  (end_block_within_device layout_hanlin (List.mem_cons_of_mem _ (List.mem_cons_self _ _))
    [plain_file 3 7, plain_file 2097153 8, plain_file 5 9] 2).1

/-- C19: for every buffer, every result of the clock and every End Block `E`
with `1 ≤ E ≤ 65531`, `write_firmware_header` changes no byte outside the
header range `[0, 76 + 16 * E)`: the bytes before the buffer, the unused
checksum slots and trailing bytes of block 0 from offset `76 + 16 * E` on, and
every byte of blocks 1 and above keep the value they had before the call. -/
theorem header_frame (md5 : List Byte → Fin 16 → Byte) (lt : Option tm) (fw : Mem) (E : Int)
    (h1 : 1 ≤ E) (h2 : E ≤ 65531) :
    (∀ a : Int, a < 0 ∨ 76 + 16 * E ≤ a → (write_firmware_header md5 lt fw E).2 a = fw a) ∧
    (∀ a : Int, 76 + 16 * E ≤ a → a < BLOCK_SIZE →
      (write_firmware_header md5 lt fw E).2 a = fw a) ∧
    (∀ a : Int, (BLOCK_SIZE : Int) ≤ a → (write_firmware_header md5 lt fw E).2 a = fw a) := by
  have hmain : ∀ a : Int, a < 0 ∨ 76 + 16 * E ≤ a →
      (write_firmware_header md5 lt fw E).2 a = fw a := by
    intro a ha
    cases lt with
    | none => rfl
    | some t => exact write_firmware_header_outside md5 t fw E h1 h2 a ha
  refine ⟨hmain, fun a ha _ => hmain a (Or.inr ha), ?_⟩
  intro a ha
  rw [block_size_int] at ha
  exact hmain a (Or.inr (by omega))

/-- Witness for `header_frame`: End Block 3 on an erased buffer; the first
unused slot, at offset `76 + 16 * 3`, is untouched. -/
theorem header_frame_witness :
    (write_firmware_header sum_digest (some sample_tm) (fun _ => 255) 3).2 124
      = (fun _ => 255 : Mem) 124 :=
  (header_frame sum_digest (some sample_tm) (fun _ => 255) 3 (by decide) (by decide)).1 124
    (Or.inr (by decide))

/-- C20: for every partition of the catalog the `int` products
`size * BLOCK_SIZE` and `offset * BLOCK_SIZE` are below `2 ^ 31`, so their
32-bit values equal the mathematical products and the size check compares the
file size with the true capacity; for every `end_block ≤ 64` the product
`end_block * BLOCK_SIZE` is below `2 ^ 31`, and equal to its 32-bit value (for
`end_block ≥ -2048`, which includes every End Block, at least 1); for 2048
blocks or more the 32-bit product differs from the mathematical one. -/
theorem int_products_exact :
    (∀ l ∈ layouts, ∀ p ∈ l.partitions,
      (0 ≤ p.size * BLOCK_SIZE ∧ p.size * BLOCK_SIZE < 2147483648 ∧
        int32 (p.size * BLOCK_SIZE) = p.size * BLOCK_SIZE) ∧
      (0 ≤ p.offset * BLOCK_SIZE ∧ p.offset * BLOCK_SIZE < 2147483648 ∧
        int32 (p.offset * BLOCK_SIZE) = p.offset * BLOCK_SIZE) ∧
      ∀ file_size : Int,
        file_size > int32 (p.size * BLOCK_SIZE) ↔ file_size > p.size * BLOCK_SIZE) ∧
    (∀ end_block : Int, end_block ≤ 64 →
      end_block * BLOCK_SIZE < 2147483648 ∧
      (-2048 ≤ end_block → int32 (end_block * BLOCK_SIZE) = end_block * BLOCK_SIZE)) ∧
    (∀ n : Int, 2048 ≤ n → int32 (n * BLOCK_SIZE) ≠ n * BLOCK_SIZE) ∧
    int32 (2048 * BLOCK_SIZE) = -2147483648 := by
  refine ⟨?_, ?_, ?_, by decide⟩
  · intro l hl p hp
    obtain ⟨hs, _⟩ := catalog_ascending l hl
    obtain ⟨c1, c2, c3⟩ := catalog_offsets l hl p hp
    rw [hs] at c3
    rw [block_size_int]
    have e1 : int32 (p.size * 1048576) = p.size * 1048576 :=
      int32_of_range _ (by omega) (by omega)
    have e2 : int32 (p.offset * 1048576) = p.offset * 1048576 :=
      int32_of_range _ (by omega) (by omega)
    refine ⟨⟨by omega, by omega, e1⟩, ⟨by omega, by omega, e2⟩, ?_⟩
    intro file_size
    rw [e1]
  · intro E hE
    rw [block_size_int]
    refine ⟨by omega, ?_⟩
    intro hlow
    exact int32_of_range _ (by omega) (by omega)
  · intro n hn
    rw [block_size_int]
    unfold int32
    omega

end Mkv3update
